import Mathlib

/-!
Verification of `src/code/logfs.c`, a write-behind log over a block device
----------------------------------------------------------------------------

A shallow embedding of `logfs.c` and the properties of its ring buffer, flush
barrier and read cache.

* The `int` fields of `struct logfs` are `Int`; the C operators `/` and `%`
  are `Int.tdiv` and `Int.tmod` (truncation toward zero).  Values are assumed
  to stay inside the range of `int` (signed overflow is undefined in C).
* Memory regions (`write_buffer`, `block_data`, the caller's `buffer`) are
  functions from a byte index to a byte; bytes are natural numbers.
* Every critical section that runs under `synch_mutex` is one function.  A
  section returns the list of condition variables it signals.
* There is the worker thread and one calling thread.  A thread that waits on
  a condition variable goes on only after a signal on that variable (no
  spurious wake-up), and only once it can take the mutex again.
* The block device of `device.h` is not part of the sources; it is modelled
  from its contract, and it records the calls it receives.
-/

namespace LogFS

/-- The constant `WRITE_CACHE_BLOCK_COUNT`. -/
def WRITE_CACHE_BLOCK_COUNT : Int := 32

/-- The constant `READ_CACHE_BLOCK_COUNT`. -/
def READ_CACHE_BLOCK_COUNT : Int := 256

/-- One call of `device_write` as the device saw it: the target offset, the
length, and the bytes taken from the source pointer. -/
structure WriteCall where
  offset : Int
  length : Int
  data : List Nat
deriving DecidableEq

/-- One call of `device_read` as the device saw it. -/
structure ReadCall where
  offset : Int
  length : Int
deriving DecidableEq

/-- Modelled from the spec: the block device collaborator (`device.h` and its
implementation are missing from the sources).  `block` is the fixed block
size, `store` the byte held at each device offset.  `read_error` and
`write_error` tell at which offsets `device_read` / `device_write` report
failure; the contract does not say what a failed `device_read` leaves in the
destination, so that is the parameter `read_failed_dst` (destination before
to destination after).  `writes` and `reads` record the calls received, oldest
first. -/
structure device where
  block : Int
  store : Int → Nat
  read_error : Int → Bool
  read_failed_dst : (Int → Nat) → (Int → Nat)
  write_error : Int → Bool
  writes : List WriteCall
  reads : List ReadCall

/-- Modelled from the spec: `device_block`, the fixed block size. -/
def device_block (dev : device) : Int := dev.block

/-- Modelled from the spec: `device_write(device, src, offset, length)`
(missing from the sources).  Returns 0 and stores `src[0..length)` at
`[offset, offset+length)`, or returns -1 and stores nothing. -/
def device_write (dev : device) (src : Int → Nat) (off len : Int) : Int × device :=
  let call : WriteCall := ⟨off, len, (List.range len.toNat).map (fun (i : Nat) => src (i : Int))⟩
  if dev.write_error off then
    (-1, { dev with writes := dev.writes ++ [call] })
  else
    (0, { dev with
            store := fun i => if off ≤ i ∧ i < off + len then src (i - off) else dev.store i
            writes := dev.writes ++ [call] })

/-- Modelled from the spec: `device_read(device, dst, offset, length)` (missing
from the sources).  Returns 0 and the destination filled with the stored bytes
`[offset, offset+length)`, or returns -1 with the destination in the state
`read_failed_dst` gives. -/
def device_read (dev : device) (dst : Int → Nat) (off len : Int) :
    Int × device × (Int → Nat) :=
  let dev1 := { dev with reads := dev.reads ++ [(⟨off, len⟩ : ReadCall)] }
  if dev.read_error off then
    (-1, dev1, dev.read_failed_dst dst)
  else
    (0, dev1, fun i => if 0 ≤ i ∧ i < len then dev.store (off + i) else dst i)

/-- Modelled from the spec: `memcpy(dst + doff, src + soff, n)`. -/
def memcpy (dst : Int → Nat) (doff : Int) (src : Int → Nat) (soff n : Int) : Int → Nat :=
  fun i => if doff ≤ i ∧ i < doff + n then src (soff + (i - doff)) else dst i

/-- The `struct ReadCacheBlock`. -/
structure ReadCacheBlock where
  is_valid : Int
  block_identifier : Int
  block_data : Int → Nat

/-- The `struct logfs` (the pthread objects are left out, `write_buffer` is
the aligned buffer, `read_cache_blocks` the array of 256 lines). -/
structure logfs where
  device_handle : device
  write_buffer : Int → Nat
  buffer_head_index : Int
  buffer_tail_index : Int
  block_size : Int
  write_buffer_total : Int
  write_buffer_curr : Int
  should_exit_worker_thread : Int
  curr_file_offset : Int
  read_cache_blocks : Int → ReadCacheBlock

/-- The three condition variables of `struct logfs`. -/
inductive Cond where
  | space_available_con
  | item_available_con
  | flush_con
deriving DecidableEq

/-- `logfs_open`, on the device handle that `device_open` returned. -/
def logfs_open (dev : device) : logfs :=
  { device_handle := dev
    write_buffer := fun _ => 0
    buffer_head_index := 0
    buffer_tail_index := 0
    block_size := device_block dev
    write_buffer_total := WRITE_CACHE_BLOCK_COUNT * device_block dev
    write_buffer_curr := 0
    should_exit_worker_thread := 0
    curr_file_offset := 0
    read_cache_blocks := fun _ => { is_valid := 0, block_identifier := -1, block_data := fun _ => 0 } }

/-- Lines 59-79 of `write_to_disk`: the worker persists one block.  `none`
when `device_write` fails (the worker thread exits, still holding the mutex).
Otherwise the new state and the condition variables signalled. -/
def write_to_disk_block (fs : logfs) : Option (logfs × List Cond) :=
  let current_block_id := Int.tdiv fs.curr_file_offset fs.block_size
  let read_cache_index := Int.tmod current_block_id READ_CACHE_BLOCK_COUNT
  let cache : Int → ReadCacheBlock :=
    if (fs.read_cache_blocks read_cache_index).block_identifier = current_block_id then
      fun i => if i = read_cache_index then
        { fs.read_cache_blocks read_cache_index with is_valid := 0 }
      else fs.read_cache_blocks i
    else fs.read_cache_blocks
  let r := device_write fs.device_handle (fun i => fs.write_buffer (fs.buffer_tail_index + i))
    fs.curr_file_offset fs.block_size
  if r.1 ≠ 0 then none
  else
    let tail := Int.tmod (fs.buffer_tail_index + fs.block_size) fs.write_buffer_total
    let fs1 : logfs :=
      { fs with
          device_handle := r.2
          read_cache_blocks := cache
          buffer_tail_index := tail
          write_buffer_curr := fs.write_buffer_curr - fs.block_size
          curr_file_offset := fs.curr_file_offset + fs.block_size }
    if fs.buffer_head_index = tail ∨ (tail = 0 ∧ fs.buffer_head_index = fs.write_buffer_total) then
      some (fs1, [Cond.flush_con])
    else some (fs1, [])

/-- The loop of `write_to_disk` from the moment the worker holds the mutex
until it gives it up again: it persists blocks while a full block is pending
and then waits on `item_available_con` (or exits when asked to).  The result
carries every signal raised on the way.  `none`: the worker died on a device
error, or the fuel ran out. -/
def write_to_disk : Nat → logfs → List Cond → Option (logfs × List Cond)
  | fuel, fs, sigs =>
    if fs.should_exit_worker_thread ≠ 0 then some (fs, sigs)
    else if fs.write_buffer_curr < fs.block_size then some (fs, sigs)
    else
      match fuel with
      | 0 => none
      | fuel + 1 =>
        match write_to_disk_block fs with
        | none => none
        | some (fs1, s) => write_to_disk fuel fs1 (sigs ++ s)

/-- Lines 130-133 of `flush_to_disk`: the head is moved to the next block
boundary.  Returns the state and the local `distance_to_move_head`. -/
def flush_pad (fs : logfs) : logfs × Int :=
  let distance_to_move_head := fs.block_size - Int.tmod fs.buffer_head_index fs.block_size
  ({ fs with
       buffer_head_index := fs.buffer_head_index + distance_to_move_head
       write_buffer_curr := fs.write_buffer_curr + distance_to_move_head },
   distance_to_move_head)

/-- Lines 135-140 of `flush_to_disk`: the bookkeeping after the wait on
`flush_con`. -/
def flush_rollback (fs : logfs) (distance_to_move_head : Int) : logfs :=
  let head := fs.buffer_head_index - distance_to_move_head
  { fs with
      buffer_head_index := head
      buffer_tail_index :=
        if fs.buffer_tail_index = 0 then head - Int.tmod head fs.block_size
        else fs.buffer_tail_index - fs.block_size
      write_buffer_curr := Int.tmod head fs.block_size
      curr_file_offset := fs.curr_file_offset - fs.block_size }

/-- `flush_to_disk` with one calling thread: pad, signal `item_available_con`,
wait on `flush_con` while the worker runs, then roll back.  The caller gets
the mutex back only when the worker gives it up; it resumes only if `flush_con`
was signalled meanwhile.  `none`: the call never returns.  Each block the
worker persists lowers `write_buffer_curr` by the (positive) block size, so
the fuel given below is never the reason for `none` with a positive block
size. -/
def flush_to_disk (fs : logfs) : Option logfs :=
  let p := flush_pad fs
  match write_to_disk (p.1.write_buffer_curr.toNat + 1) p.1 [] with
  | none => none
  | some (fs2, sigs) =>
    if Cond.flush_con ∈ sigs then some (flush_rollback fs2 p.2) else none

/-- Lines 212-217 of `logfs_append`: one byte is copied at the head. -/
def logfs_append_byte (fs : logfs) (b : Nat) : logfs × List Cond :=
  ({ fs with
       write_buffer_curr := fs.write_buffer_curr + 1
       write_buffer := fun i => if i = fs.buffer_head_index then b else fs.write_buffer i
       buffer_head_index := Int.tmod (fs.buffer_head_index + 1) fs.write_buffer_total },
   [Cond.item_available_con])

/-- The loop of `logfs_append` up to the point where the call either has
copied everything or waits on `space_available_con`.  Returns the state, the
bytes not yet copied (empty: the call is about to return 0) and the signals
raised. -/
def logfs_append_loop : logfs → List Nat → List Cond → logfs × List Nat × List Cond
  | fs, [], sigs => (fs, [], sigs)
  | fs, b :: rest, sigs =>
    if fs.write_buffer_total ≤ fs.write_buffer_curr then (fs, b :: rest, sigs)
    else logfs_append_loop (logfs_append_byte fs b).1 rest (sigs ++ (logfs_append_byte fs b).2)

/-- `logfs_append`: `some` state if the call returns 0; `none` if it ends up
waiting on `space_available_con`. -/
def logfs_append (fs : logfs) (data : List Nat) : Option logfs :=
  match logfs_append_loop fs data [] with
  | (fs1, [], _) => some fs1
  | (_, _ :: _, _) => none

/-- The `while` loop of `logfs_read` (lines 174-201), with the locals as
arguments.  Returns the return code, the state and the caller's buffer;
`none` only when the fuel runs out. -/
def logfs_read_loop : Nat → logfs → (Int → Nat) → Int → Int → Int → Int → Int → Int →
    Option (Int × logfs × (Int → Nat))
  | fuel, fs, buffer, block_id, read_cache_index, read_start_offset, length_to_read,
    read_so_far, length =>
    if ¬ (read_so_far < length) then some (0, fs, buffer)
    else
      match fuel with
      | 0 => none
      | fuel + 1 =>
        let line := fs.read_cache_blocks read_cache_index
        if line.is_valid ≠ 0 ∧ line.block_identifier = block_id then
          let buffer1 := memcpy buffer read_so_far line.block_data read_start_offset length_to_read
          let read_so_far1 := read_so_far + length_to_read
          let block_id1 := block_id + 1
          logfs_read_loop fuel fs buffer1 block_id1 (Int.tmod block_id1 READ_CACHE_BLOCK_COUNT)
            0 (min fs.block_size (length - read_so_far1)) read_so_far1 length
        else
          let r := device_read fs.device_handle line.block_data (block_id * fs.block_size)
            fs.block_size
          if r.1 ≠ 0 then
            some (-1,
              { fs with
                  device_handle := r.2.1
                  read_cache_blocks := fun i => if i = read_cache_index then
                    { line with block_data := r.2.2 } else fs.read_cache_blocks i },
              buffer)
          else
            let line1 : ReadCacheBlock :=
              { is_valid := 1, block_identifier := block_id, block_data := r.2.2 }
            let fs1 : logfs :=
              { fs with
                  device_handle := r.2.1
                  read_cache_blocks := fun i => if i = read_cache_index then line1
                    else fs.read_cache_blocks i }
            let buffer1 := memcpy buffer read_so_far line1.block_data read_start_offset
              length_to_read
            let read_so_far1 := read_so_far + length_to_read
            let block_id1 := block_id + 1
            logfs_read_loop fuel fs1 buffer1 block_id1
              (Int.tmod block_id1 READ_CACHE_BLOCK_COUNT)
              0 (min fs.block_size (length - read_so_far1)) read_so_far1 length

/-- The part of `logfs_read` after the call of `flush_to_disk` (lines 169-202).
Every turn of the loop copies at least one byte when the block size is
positive, so `length + 1` turns are enough. -/
def logfs_read_body (fs : logfs) (buffer : Int → Nat) (offset length : Nat) :
    Option (Int × logfs × (Int → Nat)) :=
  let block_id := Int.tdiv (offset : Int) fs.block_size
  let read_cache_index := Int.tmod block_id READ_CACHE_BLOCK_COUNT
  let read_start_offset := Int.tmod (offset : Int) fs.block_size
  let length_to_read := min (length : Int) (fs.block_size - read_start_offset)
  logfs_read_loop (length + 1) fs buffer block_id read_cache_index read_start_offset
    length_to_read 0 (length : Int)

/-- `logfs_read`: the flush barrier, then the loop.  `none`: the call does not
return. -/
def logfs_read (fs : logfs) (buffer : Int → Nat) (offset length : Nat) :
    Option (Int × logfs × (Int → Nat)) :=
  match flush_to_disk fs with
  | none => none
  | some fs1 => logfs_read_body fs1 buffer offset length

/-- A device with the given block size, every byte 0, no failures, no calls
received yet. -/
def blank_device (B : Int) : device :=
  { block := B, store := fun _ => 0, read_error := fun _ => false,
    read_failed_dst := fun dst => dst, write_error := fun _ => false, writes := [], reads := [] }

/-- The states of one handle with one calling thread, from `logfs_open` on.
`Reach dev0 fs w sg ok S`: the device was `dev0` when it was opened and the
handle is now in state `fs`; `w` is `some d` while the caller is suspended
inside `flush_to_disk` with `distance_to_move_head = d`; `sg` tells whether
`flush_con` was signalled since that wait began; `ok` tells whether every
`device_read` so far succeeded; `S` is the stream of bytes appended so far.
The steps are the critical sections of the program: one byte copied by
`logfs_append`, one block persisted by the worker (only successful writes: a
failed one ends the worker with the mutex held), the two halves of
`flush_to_disk` (the second one only after the signal on `flush_con`, when the
worker has given up the mutex), and the loop of `logfs_read`. -/
inductive Reach (dev0 : device) : logfs → Option Int → Bool → Bool → List Nat → Prop
  | opened (hB : 0 < dev0.block) (hw : dev0.writes = []) (hr : dev0.reads = []) :
      Reach dev0 (logfs_open dev0) none false true []
  | append_byte {fs : logfs} {sg ok : Bool} {S : List Nat} (b : Nat) :
      Reach dev0 fs none sg ok S → fs.write_buffer_curr < fs.write_buffer_total →
      Reach dev0 (logfs_append_byte fs b).1 none sg ok (S ++ [b])
  | persist {fs fs1 : logfs} {w : Option Int} {sg ok : Bool} {S : List Nat} {sigs : List Cond} :
      Reach dev0 fs w sg ok S → fs.block_size ≤ fs.write_buffer_curr →
      write_to_disk_block fs = some (fs1, sigs) →
      Reach dev0 fs1 w (sg || decide (Cond.flush_con ∈ sigs)) ok S
  | pad {fs : logfs} {sg ok : Bool} {S : List Nat} :
      Reach dev0 fs none sg ok S → Reach dev0 (flush_pad fs).1 (some (flush_pad fs).2) false ok S
  | rollback {fs : logfs} {d : Int} {ok : Bool} {S : List Nat} :
      Reach dev0 fs (some d) true ok S → fs.write_buffer_curr < fs.block_size →
      Reach dev0 (flush_rollback fs d) none false ok S
  | read {fs fs1 : logfs} {sg ok : Bool} {S : List Nat} (buffer out : Int → Nat)
      (offset length : Nat) (rc : Int) :
      Reach dev0 fs none sg ok S → logfs_read_body fs buffer offset length = some (rc, fs1, out) →
      Reach dev0 fs1 none sg (ok && decide (rc = 0)) S

/-- Two states that differ at most in the read cache and in the list of
`device_read` calls the device has received. -/
structure SameLog (fs fs1 : logfs) : Prop where
  hbuf : fs1.write_buffer = fs.write_buffer
  hhead : fs1.buffer_head_index = fs.buffer_head_index
  htail : fs1.buffer_tail_index = fs.buffer_tail_index
  hbs : fs1.block_size = fs.block_size
  htot : fs1.write_buffer_total = fs.write_buffer_total
  hcurr : fs1.write_buffer_curr = fs.write_buffer_curr
  hexit : fs1.should_exit_worker_thread = fs.should_exit_worker_thread
  hoff : fs1.curr_file_offset = fs.curr_file_offset
  hblock : fs1.device_handle.block = fs.device_handle.block
  hstore : fs1.device_handle.store = fs.device_handle.store
  hrerr : fs1.device_handle.read_error = fs.device_handle.read_error
  hwerr : fs1.device_handle.write_error = fs.device_handle.write_error
  hwrites : fs1.device_handle.writes = fs.device_handle.writes
  hrfd : fs1.device_handle.read_failed_dst = fs.device_handle.read_failed_dst

/-- The ring-buffer bookkeeping in terms of the stream length `L` and the
persisted offset: outside a flush the head is `L mod C`, the tail is
`offset mod C` and `L - offset` bytes are pending; while a flush waits the
head and the pending count are ahead by the pad. -/
structure RingInv (fs : logfs) (w : Option Int) (sg : Bool) (L : Int) : Prop where
  hB : 0 < fs.block_size
  hC : fs.write_buffer_total = 32 * fs.block_size
  hexit : fs.should_exit_worker_thread = 0
  hL : 0 ≤ L
  hoff : 0 ≤ fs.curr_file_offset
  hdvd : fs.block_size ∣ fs.curr_file_offset
  htail : fs.buffer_tail_index = fs.curr_file_offset % (32 * fs.block_size)
  hcap : L ≤ fs.curr_file_offset + 32 * fs.block_size
  hnone : w = none → fs.curr_file_offset ≤ L ∧
    fs.buffer_head_index = L % (32 * fs.block_size) ∧
    fs.write_buffer_curr = L - fs.curr_file_offset
  hsome : ∀ d, w = some d → d = fs.block_size - L % fs.block_size ∧
    fs.buffer_head_index = L % (32 * fs.block_size) + d ∧
    fs.write_buffer_curr = L + d - fs.curr_file_offset ∧
    fs.curr_file_offset ≤ L + d ∧
    (fs.write_buffer_curr = 0 → sg = true)

/-- The ring-buffer invariant in the wording of the data model: head and tail
lie in `[0, C)`, the pending count lies in `[0, C]` and equals
`(head - tail) mod C`. -/
def ring_invariant_as_stated (fs : logfs) : Prop :=
  0 ≤ fs.buffer_head_index ∧ fs.buffer_head_index < fs.write_buffer_total ∧
  0 ≤ fs.buffer_tail_index ∧ fs.buffer_tail_index < fs.write_buffer_total ∧
  0 ≤ fs.write_buffer_curr ∧ fs.write_buffer_curr ≤ fs.write_buffer_total ∧
  fs.write_buffer_curr =
    (fs.buffer_head_index - fs.buffer_tail_index) % fs.write_buffer_total

/-- A device with block size 4096 on which `device_read` fails at offset 0
and leaves the byte 255 all over the destination. -/
def read_failing_device : device :=
  { block := 4096, store := fun _ => 0, read_error := fun o => decide (o = 0),
    read_failed_dst := fun _ _ => 255, write_error := fun _ => false,
    writes := [], reads := [] }

variable {dev0 : device}

/-! ## Arithmetic of block positions -/

theorem sub_emod_eq_mul (a B : Int) : a - a % B = B * (a / B) := by
  have := Int.emod_add_ediv a B
  omega

theorem emod_block_bounds {B a : Int} (hB : 0 < B) (ha : 0 ≤ a) (hlt : a < 32 * B) :
    0 ≤ a - a % B ∧ a - a % B + B ≤ 32 * B := by
  have h1 := Int.emod_nonneg a (ne_of_gt hB)
  have h2 := Int.emod_lt_of_pos a hB
  have h3 := sub_emod_eq_mul a B
  have h4 : 0 ≤ a / B := Int.ediv_nonneg ha (le_of_lt hB)
  have h5 : a / B < 32 := Int.ediv_lt_of_lt_mul hB hlt
  have h6 : B * (a / B) ≤ B * 31 := Int.mul_le_mul_of_nonneg_left (by omega) (le_of_lt hB)
  have h7 : 0 ≤ B * (a / B) := Int.mul_nonneg (le_of_lt hB) h4
  omega

theorem emod_emod_block (L B : Int) : (L % (32 * B)) % B = L % B :=
  Int.emod_emod_of_dvd L (Dvd.intro_left 32 rfl)

theorem block_start_emod {B L : Int} (hB : 0 < B) :
    (L - L % B) % (32 * B) = L % (32 * B) - L % B := by
  have hC : (0:Int) < 32 * B := by omega
  have h1 := Int.emod_nonneg L (ne_of_gt hC)
  have h2 := Int.emod_lt_of_pos L hC
  have h3 := emod_block_bounds hB h1 h2
  rw [emod_emod_block] at h3
  have h4 : L - L % B = (L % (32 * B) - L % B) + (32 * B) * (L / (32 * B)) := by
    have := Int.emod_add_ediv L (32 * B)
    omega
  rw [h4, Int.add_mul_emod_self_left]
  exact Int.emod_eq_of_lt h3.1 (by omega)

theorem dvd_emod_bounds {B a : Int} (hB : 0 < B) (hd : B ∣ a) :
    B ∣ a % (32 * B) ∧ 0 ≤ a % (32 * B) ∧ a % (32 * B) + B ≤ 32 * B := by
  have hC : (0:Int) < 32 * B := by omega
  have h1 := Int.emod_nonneg a (ne_of_gt hC)
  have h2 := Int.emod_lt_of_pos a hC
  have h3 := emod_block_bounds hB h1 h2
  rw [emod_emod_block] at h3
  have h0 : a % B = 0 := Int.emod_eq_zero_of_dvd hd
  rw [h0] at h3
  refine ⟨?_, h1, by omega⟩
  have : (a % (32 * B)) % B = 0 := by rw [emod_emod_block]; exact h0
  exact Int.dvd_of_emod_eq_zero this

theorem add_block_emod {B a : Int} (hB : 0 < B) (hd : B ∣ a) :
    (a % (32 * B) + B) % (32 * B) =
      if a % (32 * B) + B = 32 * B then 0 else a % (32 * B) + B := by
  have h := dvd_emod_bounds hB hd
  split
  · next h1 => rw [h1]; exact Int.emod_self
  · next h1 => exact Int.emod_eq_of_lt (by omega) (by omega)

/-- The position just past the block that holds `L` is a multiple of `B`. -/
theorem dvd_next_boundary (L B : Int) : B ∣ L + (B - L % B) := by
  have h := sub_emod_eq_mul L B
  have : L + (B - L % B) = B * (L / B + 1) := by rw [mul_add, ← h]; ring
  rw [this]
  exact Dvd.intro _ rfl

/-! ## What each critical section does to the fields -/

theorem write_to_disk_block_eq {fs fs1 : logfs} {sigs : List Cond}
    (h : write_to_disk_block fs = some (fs1, sigs)) :
    fs.device_handle.write_error fs.curr_file_offset = false ∧
    fs1.device_handle = (device_write fs.device_handle
      (fun i => fs.write_buffer (fs.buffer_tail_index + i))
      fs.curr_file_offset fs.block_size).2 ∧
    fs1.write_buffer = fs.write_buffer ∧
    fs1.buffer_head_index = fs.buffer_head_index ∧
    fs1.buffer_tail_index =
      Int.tmod (fs.buffer_tail_index + fs.block_size) fs.write_buffer_total ∧
    fs1.block_size = fs.block_size ∧
    fs1.write_buffer_total = fs.write_buffer_total ∧
    fs1.write_buffer_curr = fs.write_buffer_curr - fs.block_size ∧
    fs1.should_exit_worker_thread = fs.should_exit_worker_thread ∧
    fs1.curr_file_offset = fs.curr_file_offset + fs.block_size ∧
    (Cond.flush_con ∈ sigs ↔
      (fs1.buffer_head_index = fs1.buffer_tail_index ∨
        (fs1.buffer_tail_index = 0 ∧ fs1.buffer_head_index = fs1.write_buffer_total))) ∧
    Cond.space_available_con ∉ sigs := by
  unfold write_to_disk_block at h
  by_cases he : fs.device_handle.write_error fs.curr_file_offset = true
  · simp [device_write, he] at h
  · simp only [Bool.not_eq_true] at he
    simp only [device_write, he] at h
    simp only [Bool.false_eq_true, if_false, ne_eq, not_true_eq_false] at h
    split at h
    · next hc =>
      simp only [Option.some.injEq, Prod.mk.injEq] at h
      obtain ⟨rfl, rfl⟩ := h
      simp [device_write, he, hc]
    · next hc =>
      simp only [Option.some.injEq, Prod.mk.injEq] at h
      obtain ⟨rfl, rfl⟩ := h
      simp [device_write, he]
      simpa using hc

theorem ringInv_open (dev : device) (hB : 0 < dev.block) :
    RingInv (logfs_open dev) none false 0 := by
  refine ⟨hB, by simp [logfs_open, WRITE_CACHE_BLOCK_COUNT, device_block], rfl, le_refl _,
    le_refl _, ?_, ?_, ?_, ?_, ?_⟩
  · simp [logfs_open]
  · simp [logfs_open]
  · simp [logfs_open, device_block]; omega
  · intro _; simp [logfs_open]
  · intro d h; cases h

theorem ringInv_append_byte {fs : logfs} {sg : Bool} {L : Int} (b : Nat)
    (h : RingInv fs none sg L) (hlt : fs.write_buffer_curr < fs.write_buffer_total) :
    RingInv (logfs_append_byte fs b).1 none sg (L + 1) := by
  obtain ⟨hB, hC, hexit, hL, hoff, hdvd, htail, hcap, hnone, -⟩ := h
  obtain ⟨h1, h2, h3⟩ := hnone rfl
  have hCpos : (0:Int) < 32 * fs.block_size := by omega
  have hh := Int.emod_nonneg L (ne_of_gt hCpos)
  refine ⟨hB, hC, hexit, by omega, hoff, hdvd, htail, ?_, ?_, ?_⟩
  · simp only [logfs_append_byte]; omega
  · intro _
    simp only [logfs_append_byte]
    refine ⟨by omega, ?_, by omega⟩
    rw [Int.tmod_eq_emod (by omega) (by omega), hC, h2, Int.emod_add_emod]
  · intro d h; cases h

theorem ringInv_persist {fs fs1 : logfs} {w : Option Int} {sg : Bool} {L : Int}
    {sigs : List Cond} (h : RingInv fs w sg L) (hge : fs.block_size ≤ fs.write_buffer_curr)
    (hs : write_to_disk_block fs = some (fs1, sigs)) :
    RingInv fs1 w (sg || decide (Cond.flush_con ∈ sigs)) L := by
  obtain ⟨-, -, -, hhead, ht, hbs, htot, hcurr, hex, ho, hsig, -⟩ := write_to_disk_block_eq hs
  obtain ⟨hB, hC, hexit, hL, hoff, hdvd, htail, hcap, hnone, hsome⟩ := h
  have hCpos : (0:Int) < 32 * fs.block_size := by omega
  have hb := dvd_emod_bounds hB hdvd
  have htail1 : fs1.buffer_tail_index = (fs.curr_file_offset + fs.block_size) %
      (32 * fs.block_size) := by
    rw [ht, Int.tmod_eq_emod (by omega) (by omega), hC, htail, Int.emod_add_emod]
  refine ⟨by omega, by rw [htot, hbs, hC], by omega, hL, by omega, ?_, ?_, ?_, ?_, ?_⟩
  · rw [hbs, ho]; exact Int.dvd_add hdvd (Int.dvd_refl _)
  · rw [hbs, ho]; exact htail1
  · rw [hbs, ho]; omega
  · intro hw
    obtain ⟨h1, h2, h3⟩ := hnone hw
    rw [hbs, ho, hhead, hcurr]
    exact ⟨by omega, h2, by omega⟩
  · intro d hw
    obtain ⟨h1, h2, h3, h4, h5⟩ := hsome d hw
    rw [hbs, ho, hhead, hcurr]
    refine ⟨h1, h2, by omega, by omega, ?_⟩
    intro h0
    have hoffeq : fs.curr_file_offset + fs.block_size = L + d := by omega
    have hsigd : Cond.flush_con ∈ sigs := by
      rw [hsig, hhead, htail1, htot, hC, h2, hoffeq]
      have hLm := Int.emod_nonneg L (ne_of_gt hCpos)
      have hLlt := Int.emod_lt_of_pos L hCpos
      have hbb := emod_block_bounds hB hLm hLlt
      rw [emod_emod_block] at hbb
      have hdec : L + d = (L % (32 * fs.block_size) + d) +
          (32 * fs.block_size) * (L / (32 * fs.block_size)) := by
        have := Int.emod_add_ediv L (32 * fs.block_size)
        omega
      rw [hdec, Int.add_mul_emod_self_left]
      by_cases hfull : L % (32 * fs.block_size) + d = 32 * fs.block_size
      · right
        rw [hfull]
        exact ⟨Int.emod_self, rfl⟩
      · left
        exact (Int.emod_eq_of_lt (by omega) (by omega)).symm
    simp [hsigd]

theorem ringInv_pad {fs : logfs} {sg : Bool} {L : Int} (h : RingInv fs none sg L) :
    RingInv (flush_pad fs).1 (some (flush_pad fs).2) false L := by
  obtain ⟨hB, hC, hexit, hL, hoff, hdvd, htail, hcap, hnone, -⟩ := h
  obtain ⟨h1, h2, h3⟩ := hnone rfl
  have hCpos : (0:Int) < 32 * fs.block_size := by omega
  have hLm := Int.emod_nonneg L (ne_of_gt hCpos)
  have hd : (flush_pad fs).2 = fs.block_size - L % fs.block_size := by
    simp only [flush_pad]
    rw [Int.tmod_eq_emod (by omega) (by omega), h2, emod_emod_block]
  have hr1 := Int.emod_nonneg L (ne_of_gt hB)
  have hr2 := Int.emod_lt_of_pos L hB
  refine ⟨hB, hC, hexit, hL, hoff, hdvd, htail, hcap, ?_, ?_⟩
  · intro h; cases h
  · intro d hw
    have hdd : d = (flush_pad fs).2 := by cases hw; rfl
    rw [hdd, hd]
    simp only [flush_pad]
    rw [Int.tmod_eq_emod (by omega) (by omega), h2, emod_emod_block]
    refine ⟨trivial, rfl, by omega, by omega, ?_⟩
    intro h0
    omega

theorem ringInv_drained {fs : logfs} {d : Int} {sg : Bool} {L : Int}
    (h : RingInv fs (some d) sg L) (hlt : fs.write_buffer_curr < fs.block_size) :
    fs.write_buffer_curr = 0 ∧ fs.curr_file_offset = L + d := by
  obtain ⟨hB, hC, hexit, hL, hoff, hdvd, htail, hcap, -, hsome⟩ := h
  obtain ⟨h1, h2, h3, h4, h5⟩ := hsome d rfl
  have hdv : fs.block_size ∣ fs.write_buffer_curr := by
    rw [h3, h1]
    exact Int.dvd_sub (dvd_next_boundary L fs.block_size) hdvd
  obtain ⟨c, hc⟩ := hdv
  have hc0 : c = 0 := by
    by_contra hne
    have h0 : 0 ≤ fs.write_buffer_curr := by omega
    rcases lt_or_gt_of_ne hne with hneg | hpos
    · have : fs.block_size * c ≤ fs.block_size * (-1) :=
        Int.mul_le_mul_of_nonneg_left (by omega) (le_of_lt hB)
      omega
    · have : fs.block_size * 1 ≤ fs.block_size * c :=
        Int.mul_le_mul_of_nonneg_left (by omega) (le_of_lt hB)
      omega
  rw [hc0] at hc
  simp at hc
  exact ⟨hc, by omega⟩

theorem ringInv_rollback {fs : logfs} {d : Int} {sg : Bool} {L : Int}
    (h : RingInv fs (some d) sg L) (hlt : fs.write_buffer_curr < fs.block_size) :
    RingInv (flush_rollback fs d) none false L := by
  obtain ⟨hc0, hoffeq⟩ := ringInv_drained h hlt
  obtain ⟨hB, hC, hexit, hL, hoff, hdvd, htail, hcap, -, hsome⟩ := h
  obtain ⟨h1, h2, h3, h4, h5⟩ := hsome d rfl
  have hCpos : (0:Int) < 32 * fs.block_size := by omega
  have hLm := Int.emod_nonneg L (ne_of_gt hCpos)
  have hLlt := Int.emod_lt_of_pos L hCpos
  have hbb := emod_block_bounds hB hLm hLlt
  rw [emod_emod_block] at hbb
  have hr1 := Int.emod_nonneg L (ne_of_gt hB)
  have hr2 := Int.emod_lt_of_pos L hB
  have hLr : L % fs.block_size ≤ L := by
    have e1 := sub_emod_eq_mul L fs.block_size
    have e2 := Int.mul_nonneg (le_of_lt hB) (Int.ediv_nonneg hL (le_of_lt hB))
    omega
  have hhead : fs.buffer_head_index - d = L % (32 * fs.block_size) := by omega
  have hnew : fs.curr_file_offset - fs.block_size = L - L % fs.block_size := by omega
  have hdvd1 : fs.block_size ∣ fs.curr_file_offset - fs.block_size :=
    Int.dvd_sub hdvd (Int.dvd_refl _)
  have htl : fs.buffer_tail_index =
      (L % (32 * fs.block_size) - L % fs.block_size + fs.block_size) % (32 * fs.block_size) := by
    rw [htail]
    have hdec : fs.curr_file_offset = (L % (32 * fs.block_size) - L % fs.block_size +
        fs.block_size) + (32 * fs.block_size) * (L / (32 * fs.block_size)) := by
      have := Int.emod_add_ediv L (32 * fs.block_size)
      omega
    conv_lhs => rw [hdec]
    rw [Int.add_mul_emod_self_left]
  refine ⟨hB, hC, hexit, hL, ?_, ?_, ?_, ?_, ?_, ?_⟩
  · simp only [flush_rollback]; omega
  · simpa only [flush_rollback] using hdvd1
  · simp only [flush_rollback]
    rw [hhead, hnew, block_start_emod hB, Int.tmod_eq_emod (by omega) (by omega),
      emod_emod_block]
    by_cases hfull : L % (32 * fs.block_size) - L % fs.block_size + fs.block_size =
        32 * fs.block_size
    · have ht0 : fs.buffer_tail_index = 0 := by rw [htl, hfull]; exact Int.emod_self
      simp [ht0]
    · have htv : fs.buffer_tail_index =
          L % (32 * fs.block_size) - L % fs.block_size + fs.block_size := by
        rw [htl]; exact Int.emod_eq_of_lt (by omega) (by omega)
      have hne : fs.buffer_tail_index ≠ 0 := by omega
      simp only [hne, if_false]
      omega
  · simp only [flush_rollback]; omega
  · intro _
    simp only [flush_rollback]
    rw [hhead, Int.tmod_eq_emod (by omega) (by omega), emod_emod_block]
    exact ⟨by omega, rfl, by omega⟩
  · intro d h; cases h

theorem sameLog_refl (fs : logfs) : SameLog fs fs :=
  ⟨rfl, rfl, rfl, rfl, rfl, rfl, rfl, rfl, rfl, rfl, rfl, rfl, rfl, rfl⟩

theorem sameLog_trans {a b c : logfs} (h1 : SameLog a b) (h2 : SameLog b c) : SameLog a c :=
  ⟨h2.hbuf.trans h1.hbuf, h2.hhead.trans h1.hhead, h2.htail.trans h1.htail,
    h2.hbs.trans h1.hbs, h2.htot.trans h1.htot, h2.hcurr.trans h1.hcurr,
    h2.hexit.trans h1.hexit, h2.hoff.trans h1.hoff, h2.hblock.trans h1.hblock,
    h2.hstore.trans h1.hstore, h2.hrerr.trans h1.hrerr, h2.hwerr.trans h1.hwerr,
    h2.hwrites.trans h1.hwrites, h2.hrfd.trans h1.hrfd⟩

/-- The loop of `logfs_read` touches only the read cache and the device's
record of reads. -/
theorem logfs_read_loop_sameLog (fuel : Nat) : ∀ (fs : logfs) (buffer : Int → Nat)
    (bid idx st len sofar length rc : Int) (fs1 : logfs) (out : Int → Nat),
    logfs_read_loop fuel fs buffer bid idx st len sofar length = some (rc, fs1, out) →
    SameLog fs fs1 := by
  induction fuel with
  | zero =>
    intro fs buffer bid idx st len sofar length rc fs1 out h
    unfold logfs_read_loop at h
    split at h
    · simp only [Option.some.injEq, Prod.mk.injEq] at h
      obtain ⟨-, rfl, -⟩ := h
      exact sameLog_refl _
    · simp at h
  | succ n ih =>
    intro fs buffer bid idx st len sofar length rc fs1 out h
    unfold logfs_read_loop at h
    split at h
    · simp only [Option.some.injEq, Prod.mk.injEq] at h
      obtain ⟨-, rfl, -⟩ := h
      exact sameLog_refl _
    · simp only at h
      split at h
      · exact ih _ _ _ _ _ _ _ _ _ _ _ h
      · split at h
        · simp only [Option.some.injEq, Prod.mk.injEq] at h
          obtain ⟨-, rfl, -⟩ := h
          refine ⟨rfl, rfl, rfl, rfl, rfl, rfl, rfl, rfl, ?_, ?_, ?_, ?_, ?_, ?_⟩ <;>
            simp only [device_read] <;> split <;> rfl
        · refine sameLog_trans ?_ (ih _ _ _ _ _ _ _ _ _ _ _ h)
          refine ⟨rfl, rfl, rfl, rfl, rfl, rfl, rfl, rfl, ?_, ?_, ?_, ?_, ?_, ?_⟩ <;>
            simp only [device_read] <;> split <;> rfl

theorem ringInv_sameLog {fs fs1 : logfs} {w : Option Int} {sg : Bool} {L : Int}
    (h : RingInv fs w sg L) (hs : SameLog fs fs1) : RingInv fs1 w sg L := by
  obtain ⟨hB, hC, hexit, hL, hoff, hdvd, htail, hcap, hnone, hsome⟩ := h
  obtain ⟨-, e2, e3, e4, e5, e6, e7, e8, -, -, -, -, -, -⟩ := hs
  refine ⟨?_, ?_, ?_, hL, ?_, ?_, ?_, ?_, ?_, ?_⟩
  · rw [e4]; exact hB
  · rw [e4, e5]; exact hC
  · rw [e7]; exact hexit
  · rw [e8]; exact hoff
  · rw [e4, e8]; exact hdvd
  · rw [e3, e4, e8]; exact htail
  · rw [e4, e8]; exact hcap
  · rw [e2, e4, e6, e8]; exact hnone
  · rw [e2, e4, e6, e8]; exact hsome

/-- Every reachable state satisfies the ring-buffer bookkeeping. -/
theorem reach_ringInv {fs : logfs} {w : Option Int} {sg ok : Bool} {S : List Nat}
    (h : Reach dev0 fs w sg ok S) : RingInv fs w sg (S.length : Int) := by
  induction h with
  | opened hB hw hr => exact ringInv_open dev0 hB
  | append_byte b _ hlt ih =>
    have := ringInv_append_byte b ih hlt
    simpa using this
  | persist _ hge hs ih => exact ringInv_persist ih hge hs
  | pad _ ih => exact ringInv_pad ih
  | rollback _ hlt ih => exact ringInv_rollback ih hlt
  | read buffer out offset length rc _ hr ih =>
    exact ringInv_sameLog ih (logfs_read_loop_sameLog _ _ _ _ _ _ _ _ _ _ _ _ hr)

/-! ## The worker's loop and the flush barrier as runs of steps -/

theorem write_to_disk_block_some (fs : logfs)
    (he : fs.device_handle.write_error fs.curr_file_offset = false) :
    ∃ fs1 sigs, write_to_disk_block fs = some (fs1, sigs) := by
  unfold write_to_disk_block
  simp only [device_write, he]
  simp only [Bool.false_eq_true, if_false, ne_eq, not_true_eq_false]
  split
  · exact ⟨_, _, rfl⟩
  · exact ⟨_, _, rfl⟩

theorem write_to_disk_block_werr {fs fs1 : logfs} {sigs : List Cond}
    (h : write_to_disk_block fs = some (fs1, sigs)) :
    fs1.device_handle.write_error = fs.device_handle.write_error ∧
    fs1.device_handle.read_error = fs.device_handle.read_error ∧
    fs1.device_handle.block = fs.device_handle.block ∧
    fs1.device_handle.reads = fs.device_handle.reads ∧
    fs1.device_handle.read_failed_dst = fs.device_handle.read_failed_dst := by
  obtain ⟨he, hd, -⟩ := write_to_disk_block_eq h
  rw [hd]
  simp [device_write, he]

/-- A run of the worker's loop is a sequence of persist steps, and it ends
with less than a block pending. -/
theorem write_to_disk_reach {w : Option Int} {ok : Bool} {S : List Nat} (fuel : Nat) :
    ∀ (fs : logfs) (sigs : List Cond) (fs1 : logfs) (sigs1 : List Cond),
    Reach dev0 fs w (decide (Cond.flush_con ∈ sigs)) ok S →
    write_to_disk fuel fs sigs = some (fs1, sigs1) →
    Reach dev0 fs1 w (decide (Cond.flush_con ∈ sigs1)) ok S ∧
      fs1.write_buffer_curr < fs1.block_size := by
  induction fuel with
  | zero =>
    intro fs sigs fs1 sigs1 hr h
    have hex := (reach_ringInv hr).hexit
    unfold write_to_disk at h
    simp only [hex, ne_eq, not_true_eq_false, if_false] at h
    split at h
    · next hlt =>
      simp only [Option.some.injEq, Prod.mk.injEq] at h
      obtain ⟨rfl, rfl⟩ := h
      exact ⟨hr, hlt⟩
    · simp at h
  | succ n ih =>
    intro fs sigs fs1 sigs1 hr h
    have hex := (reach_ringInv hr).hexit
    unfold write_to_disk at h
    simp only [hex, ne_eq, not_true_eq_false, if_false] at h
    split at h
    · next hlt =>
      simp only [Option.some.injEq, Prod.mk.injEq] at h
      obtain ⟨rfl, rfl⟩ := h
      exact ⟨hr, hlt⟩
    · next hge =>
      split at h
      · simp at h
      · next fs2 s hs =>
        have hstep := Reach.persist hr (by omega) hs
        have hb : (decide (Cond.flush_con ∈ sigs) || decide (Cond.flush_con ∈ s)) =
            decide (Cond.flush_con ∈ sigs ++ s) := by
          simp [List.mem_append]
        rw [hb] at hstep
        exact ih fs2 (sigs ++ s) fs1 sigs1 hstep h

/-- With a positive block size, no failing `device_write` and more fuel than
pending bytes, the worker's loop comes to its wait. -/
theorem write_to_disk_total (fuel : Nat) : ∀ (fs : logfs) (sigs : List Cond),
    0 < fs.block_size → (∀ o, fs.device_handle.write_error o = false) →
    fs.write_buffer_curr < (fuel : Int) →
    ∃ r, write_to_disk fuel fs sigs = some r := by
  induction fuel with
  | zero =>
    intro fs sigs hB hw hf
    unfold write_to_disk
    split
    · exact ⟨_, rfl⟩
    · split
      · exact ⟨_, rfl⟩
      · next hge => simp at hf; omega
  | succ n ih =>
    intro fs sigs hB hw hf
    unfold write_to_disk
    split
    · exact ⟨_, rfl⟩
    · split
      · exact ⟨_, rfl⟩
      · next hge =>
        obtain ⟨fs1, s, hs⟩ := write_to_disk_block_some fs (hw _)
        simp only [hs]
        obtain ⟨-, -, -, -, -, hbs, -, hcurr, -, -, -, -⟩ := write_to_disk_block_eq hs
        obtain ⟨hwe, -, -, -, -⟩ := write_to_disk_block_werr hs
        apply ih
        · rw [hbs]; exact hB
        · intro o; rw [hwe]; exact hw o
        · rw [hcurr]; push_cast at hf; omega

/-- What a run of the worker's loop leaves alone. -/
theorem write_to_disk_frame (fuel : Nat) : ∀ (fs : logfs) (sigs : List Cond) (fs1 : logfs)
    (sigs1 : List Cond), write_to_disk fuel fs sigs = some (fs1, sigs1) →
    fs1.write_buffer = fs.write_buffer ∧
    fs1.buffer_head_index = fs.buffer_head_index ∧
    fs1.block_size = fs.block_size ∧
    fs1.write_buffer_total = fs.write_buffer_total ∧
    fs1.device_handle.write_error = fs.device_handle.write_error ∧
    fs1.device_handle.read_error = fs.device_handle.read_error ∧
    fs1.device_handle.block = fs.device_handle.block ∧
    fs1.device_handle.reads = fs.device_handle.reads := by
  induction fuel with
  | zero =>
    intro fs sigs fs1 sigs1 h
    unfold write_to_disk at h
    split at h
    · simp only [Option.some.injEq, Prod.mk.injEq] at h
      obtain ⟨rfl, rfl⟩ := h
      exact ⟨rfl, rfl, rfl, rfl, rfl, rfl, rfl, rfl⟩
    · split at h
      · simp only [Option.some.injEq, Prod.mk.injEq] at h
        obtain ⟨rfl, rfl⟩ := h
        exact ⟨rfl, rfl, rfl, rfl, rfl, rfl, rfl, rfl⟩
      · simp at h
  | succ n ih =>
    intro fs sigs fs1 sigs1 h
    unfold write_to_disk at h
    split at h
    · simp only [Option.some.injEq, Prod.mk.injEq] at h
      obtain ⟨rfl, rfl⟩ := h
      exact ⟨rfl, rfl, rfl, rfl, rfl, rfl, rfl, rfl⟩
    · split at h
      · simp only [Option.some.injEq, Prod.mk.injEq] at h
        obtain ⟨rfl, rfl⟩ := h
        exact ⟨rfl, rfl, rfl, rfl, rfl, rfl, rfl, rfl⟩
      · dsimp only at h
        split at h
        · simp at h
        · next fs2 s hs =>
          obtain ⟨-, -, e1, e2, -, e3, e4, -, -, -, -, -⟩ := write_to_disk_block_eq hs
          obtain ⟨d1, d2, d3, d4, -⟩ := write_to_disk_block_werr hs
          obtain ⟨i1, i2, i3, i4, i5, i6, i7, i8⟩ := ih _ _ _ _ h
          exact ⟨i1.trans e1, i2.trans e2, i3.trans e3, i4.trans e4, i5.trans d1,
            i6.trans d2, i7.trans d3, i8.trans d4⟩

/-- A call of `flush_to_disk` that returns is a pad step, persist steps and a
rollback step; `fs2` is the state the worker left when the caller resumed. -/
theorem flush_to_disk_steps {fs fs1 : logfs} {sg ok : Bool} {S : List Nat}
    (hr : Reach dev0 fs none sg ok S) (h : flush_to_disk fs = some fs1) :
    ∃ fs2 sigs, write_to_disk ((flush_pad fs).1.write_buffer_curr.toNat + 1)
        (flush_pad fs).1 [] = some (fs2, sigs) ∧
      Reach dev0 fs2 (some (flush_pad fs).2) true ok S ∧
      fs2.write_buffer_curr < fs2.block_size ∧
      fs1 = flush_rollback fs2 (flush_pad fs).2 := by
  unfold flush_to_disk at h
  simp only at h
  split at h
  · simp at h
  · next fs2 sigs hrun =>
    split at h
    · next hsig =>
      simp only [Option.some.injEq] at h
      have hp : Reach dev0 (flush_pad fs).1 (some (flush_pad fs).2)
          (decide (Cond.flush_con ∈ ([] : List Cond))) ok S := by
        simpa using Reach.pad hr
      obtain ⟨h1, h2⟩ := write_to_disk_reach _ _ _ _ _ hp hrun
      simp only [hsig, decide_True] at h1
      exact ⟨fs2, sigs, hrun, h1, h2, h.symm⟩
    · simp at h

theorem flush_to_disk_reach {fs fs1 : logfs} {sg ok : Bool} {S : List Nat}
    (hr : Reach dev0 fs none sg ok S) (h : flush_to_disk fs = some fs1) :
    Reach dev0 fs1 none false ok S := by
  obtain ⟨fs2, sigs, -, h1, h2, rfl⟩ := flush_to_disk_steps hr h
  exact Reach.rollback h1 h2

/-- The flush barrier returns when no `device_write` fails. -/
theorem flush_to_disk_total {fs : logfs} {sg ok : Bool} {S : List Nat}
    (hr : Reach dev0 fs none sg ok S) (hw : ∀ o, fs.device_handle.write_error o = false) :
    ∃ fs1, flush_to_disk fs = some fs1 := by
  have hp : Reach dev0 (flush_pad fs).1 (some (flush_pad fs).2)
      (decide (Cond.flush_con ∈ ([] : List Cond))) ok S := by
    simpa using Reach.pad hr
  have hinv := reach_ringInv hp
  obtain ⟨⟨fs2, sigs⟩, hrun⟩ := write_to_disk_total
    ((flush_pad fs).1.write_buffer_curr.toNat + 1) (flush_pad fs).1 [] hinv.hB hw
    (by have := Int.self_le_toNat (flush_pad fs).1.write_buffer_curr; push_cast; omega)
  obtain ⟨h1, h2⟩ := write_to_disk_reach _ _ _ _ _ hp hrun
  have hinv2 := reach_ringInv h1
  obtain ⟨hc0, -⟩ := ringInv_drained hinv2 h2
  have hsig := (hinv2.hsome _ rfl).2.2.2.2 hc0
  simp only [decide_eq_true_eq] at hsig
  refine ⟨flush_rollback fs2 (flush_pad fs).2, ?_⟩
  unfold flush_to_disk
  simp only [hrun, hsig, if_true]

/-- A call of `logfs_append` that fits into the free room of the buffer is a
run of byte steps. -/
theorem logfs_append_loop_reach {sg ok : Bool} (data : List Nat) :
    ∀ (fs : logfs) (S : List Nat) (sigs : List Cond), Reach dev0 fs none sg ok S →
    fs.write_buffer_curr + (data.length : Int) ≤ fs.write_buffer_total →
    Reach dev0 (logfs_append_loop fs data sigs).1 none sg ok (S ++ data) ∧
      (logfs_append_loop fs data sigs).2.1 = [] := by
  induction data with
  | nil =>
    intro fs S sigs hr _
    simpa [logfs_append_loop] using hr
  | cons b rest ih =>
    intro fs S sigs hr hfit
    simp only [List.length_cons, Nat.cast_add, Nat.cast_one] at hfit
    have hlt : fs.write_buffer_curr < fs.write_buffer_total := by omega
    have hstep := Reach.append_byte b hr hlt
    unfold logfs_append_loop
    simp only [not_le.mpr hlt, if_false]
    have := ih (logfs_append_byte fs b).1 (S ++ [b]) (sigs ++ (logfs_append_byte fs b).2) hstep
      (by simp only [logfs_append_byte]; omega)
    simpa using this

theorem logfs_append_reach {sg ok : Bool} {fs : logfs} {S : List Nat} (data : List Nat)
    (hr : Reach dev0 fs none sg ok S)
    (hfit : fs.write_buffer_curr + (data.length : Int) ≤ fs.write_buffer_total) :
    ∃ fs1, logfs_append fs data = some fs1 ∧ Reach dev0 fs1 none sg ok (S ++ data) := by
  obtain ⟨h1, h2⟩ := logfs_append_loop_reach data fs S [] hr hfit
  refine ⟨(logfs_append_loop fs data []).1, ?_, h1⟩
  unfold logfs_append
  generalize logfs_append_loop fs data [] = r at h2
  obtain ⟨a, b, c⟩ := r
  simp only at h2
  subst h2
  rfl

/-- What the flush barrier leaves behind, in terms of the state it was called
in. -/
theorem flush_to_disk_position {fs fs1 : logfs} {sg ok : Bool} {S : List Nat}
    (hr : Reach dev0 fs none sg ok S) (h : flush_to_disk fs = some fs1) :
    fs1.buffer_head_index = fs.buffer_head_index ∧
    fs1.curr_file_offset + fs1.write_buffer_curr =
      fs.curr_file_offset + fs.write_buffer_curr ∧
    fs1.write_buffer_curr = Int.tmod fs.buffer_head_index fs.block_size ∧
    fs1.buffer_tail_index =
      fs.buffer_head_index - Int.tmod fs.buffer_head_index fs.block_size ∧
    fs1.write_buffer = fs.write_buffer ∧
    fs1.block_size = fs.block_size ∧
    fs1.write_buffer_total = fs.write_buffer_total := by
  have hr1 := flush_to_disk_reach hr h
  obtain ⟨fs2, sigs, hrun, h1, h2, rfl⟩ := flush_to_disk_steps hr h
  obtain ⟨f1, f2, f3, f4, -⟩ := write_to_disk_frame _ _ _ _ _ hrun
  have i0 := reach_ringInv hr
  have i1 := reach_ringInv hr1
  obtain ⟨a1, a2, a3⟩ := i0.hnone rfl
  obtain ⟨b1, b2, b3⟩ := i1.hnone rfl
  have hbs : (flush_rollback fs2 (flush_pad fs).2).block_size = fs.block_size := by
    simp only [flush_rollback]; rw [f3]; rfl
  have htot : (flush_rollback fs2 (flush_pad fs).2).write_buffer_total =
      fs.write_buffer_total := by
    simp only [flush_rollback]; rw [f4]; rfl
  have hbuf : (flush_rollback fs2 (flush_pad fs).2).write_buffer = fs.write_buffer := by
    simp only [flush_rollback]; rw [f1]; rfl
  rw [hbs] at b2
  have hB := i0.hB
  have hCpos : (0:Int) < 32 * fs.block_size := by omega
  have hLm := Int.emod_nonneg (S.length : Int) (ne_of_gt hCpos)
  have hhead : (flush_rollback fs2 (flush_pad fs).2).buffer_head_index =
      fs.buffer_head_index := by rw [b2, a2]
  have hcurr : (flush_rollback fs2 (flush_pad fs).2).write_buffer_curr =
      Int.tmod fs.buffer_head_index fs.block_size := by
    have : (flush_rollback fs2 (flush_pad fs).2).write_buffer_curr =
        Int.tmod (flush_rollback fs2 (flush_pad fs).2).buffer_head_index
          (flush_rollback fs2 (flush_pad fs).2).block_size := rfl
    rw [this, hhead, hbs]
  have hmod : Int.tmod fs.buffer_head_index fs.block_size = (S.length : Int) % fs.block_size := by
    rw [Int.tmod_eq_emod (by omega) (by omega), a2, emod_emod_block]
  refine ⟨hhead, by omega, hcurr, ?_, hbuf, hbs, htot⟩
  have ht := i1.htail
  rw [hbs] at ht
  rw [ht, hmod, a2, ← block_start_emod hB]
  congr 1
  omega

/-- The block size and the failure behaviour of the device never change. -/
theorem reach_device {fs : logfs} {w : Option Int} {sg ok : Bool} {S : List Nat}
    (h : Reach dev0 fs w sg ok S) :
    fs.block_size = dev0.block ∧ fs.device_handle.block = dev0.block ∧
    fs.device_handle.write_error = dev0.write_error ∧
    fs.device_handle.read_error = dev0.read_error ∧
    fs.device_handle.read_failed_dst = dev0.read_failed_dst := by
  induction h with
  | opened hB hw hr => exact ⟨rfl, rfl, rfl, rfl, rfl⟩
  | append_byte b _ hlt ih => exact ih
  | persist _ hge hs ih =>
    obtain ⟨-, -, -, -, -, hbs, -⟩ := write_to_disk_block_eq hs
    obtain ⟨d1, d2, d3, -, d5⟩ := write_to_disk_block_werr hs
    exact ⟨hbs.trans ih.1, d3.trans ih.2.1, d1.trans ih.2.2.1, d2.trans ih.2.2.2.1,
      d5.trans ih.2.2.2.2⟩
  | pad _ ih => exact ih
  | rollback _ hlt ih => exact ih
  | read buffer out offset length rc _ hr ih =>
    have hs := logfs_read_loop_sameLog _ _ _ _ _ _ _ _ _ _ _ _ hr
    exact ⟨hs.hbs.trans ih.1, hs.hblock.trans ih.2.1, hs.hwerr.trans ih.2.2.1,
      hs.hrerr.trans ih.2.2.2.1, hs.hrfd.trans ih.2.2.2.2⟩

/-- Two positions that differ by a multiple of `C` have the same residue. -/
theorem emod_congr_of_sub {a b C q : Int} (h : a - b = C * q) : a % C = b % C := by
  have : a = b + C * q := by omega
  rw [this, Int.add_mul_emod_self_left]

/-- The pending count is congruent to head minus tail in every reachable
state. -/
theorem ringInv_congr {fs : logfs} {w : Option Int} {sg : Bool} {L : Int}
    (h : RingInv fs w sg L) :
    fs.write_buffer_curr % (32 * fs.block_size) =
      (fs.buffer_head_index - fs.buffer_tail_index) % (32 * fs.block_size) := by
  obtain ⟨hB, hC, hexit, hL, hoff, hdvd, htail, hcap, hnone, hsome⟩ := h
  have e1 := Int.emod_add_ediv L (32 * fs.block_size)
  have e2 := Int.emod_add_ediv fs.curr_file_offset (32 * fs.block_size)
  cases w with
  | none =>
    obtain ⟨h1, h2, h3⟩ := hnone rfl
    apply emod_congr_of_sub (q := L / (32 * fs.block_size) -
      fs.curr_file_offset / (32 * fs.block_size))
    rw [mul_sub]
    omega
  | some d =>
    obtain ⟨h1, h2, h3, h4, h5⟩ := hsome d rfl
    apply emod_congr_of_sub (q := L / (32 * fs.block_size) -
      fs.curr_file_offset / (32 * fs.block_size))
    rw [mul_sub]
    omega

/-- The bounds of the ring-buffer fields in every reachable state. -/
theorem ringInv_bounds {fs : logfs} {w : Option Int} {sg : Bool} {L : Int}
    (h : RingInv fs w sg L) :
    0 ≤ fs.buffer_head_index ∧ fs.buffer_head_index ≤ fs.write_buffer_total ∧
    (w = none → fs.buffer_head_index < fs.write_buffer_total) ∧
    0 ≤ fs.buffer_tail_index ∧ fs.buffer_tail_index + fs.block_size ≤ fs.write_buffer_total ∧
    fs.block_size ∣ fs.buffer_tail_index ∧
    0 ≤ fs.write_buffer_curr ∧
    fs.write_buffer_curr ≤ fs.write_buffer_total + fs.block_size ∧
    (w = none → fs.write_buffer_curr ≤ fs.write_buffer_total) := by
  obtain ⟨hB, hC, hexit, hL, hoff, hdvd, htail, hcap, hnone, hsome⟩ := h
  have hCpos : (0:Int) < 32 * fs.block_size := by omega
  have hLm := Int.emod_nonneg L (ne_of_gt hCpos)
  have hLlt := Int.emod_lt_of_pos L hCpos
  have hbb := emod_block_bounds hB hLm hLlt
  rw [emod_emod_block] at hbb
  have hr1 := Int.emod_nonneg L (ne_of_gt hB)
  have hr2 := Int.emod_lt_of_pos L hB
  obtain ⟨t1, t2, t3⟩ := dvd_emod_bounds hB hdvd
  rw [← htail] at t1 t2 t3
  rw [hC]
  cases w with
  | none =>
    obtain ⟨h1, h2, h3⟩ := hnone rfl
    refine ⟨by omega, by omega, (fun _ => by omega), t2, t3, t1, by omega, by omega,
      (fun _ => by omega)⟩
  | some d =>
    obtain ⟨h1, h2, h3, h4, h5⟩ := hsome d rfl
    refine ⟨by omega, by omega, (fun h => Option.noConfusion h), t2, t3, t1, by omega,
      by omega, (fun h => Option.noConfusion h)⟩

/-- What `logfs_append_loop` leaves alone, and what it does to the pending
count when the bytes fit. -/
theorem logfs_append_loop_frame (data : List Nat) : ∀ (fs : logfs) (sigs : List Cond),
    (logfs_append_loop fs data sigs).1.block_size = fs.block_size ∧
    (logfs_append_loop fs data sigs).1.write_buffer_total = fs.write_buffer_total ∧
    (logfs_append_loop fs data sigs).1.device_handle = fs.device_handle ∧
    (logfs_append_loop fs data sigs).1.curr_file_offset = fs.curr_file_offset ∧
    (logfs_append_loop fs data sigs).1.buffer_tail_index = fs.buffer_tail_index ∧
    (logfs_append_loop fs data sigs).1.read_cache_blocks = fs.read_cache_blocks ∧
    (fs.write_buffer_curr + (data.length : Int) ≤ fs.write_buffer_total →
      (logfs_append_loop fs data sigs).1.write_buffer_curr =
        fs.write_buffer_curr + (data.length : Int)) := by
  induction data with
  | nil =>
    intro fs sigs
    simp [logfs_append_loop]
  | cons b rest ih =>
    intro fs sigs
    unfold logfs_append_loop
    split
    · next hfull =>
      refine ⟨rfl, rfl, rfl, rfl, rfl, rfl, ?_⟩
      intro hfit
      simp only [List.length_cons, Nat.cast_add, Nat.cast_one] at hfit
      omega
    · next hroom =>
      obtain ⟨i1, i2, i3, i4, i5, i6, i7⟩ :=
        ih (logfs_append_byte fs b).1 (sigs ++ (logfs_append_byte fs b).2)
      refine ⟨i1, i2, i3, i4, i5, i6, ?_⟩
      intro hfit
      simp only [List.length_cons, Nat.cast_add, Nat.cast_one] at hfit ⊢
      have e1 : (logfs_append_byte fs b).1.write_buffer_curr = fs.write_buffer_curr + 1 := rfl
      have e2 : (logfs_append_byte fs b).1.write_buffer_total = fs.write_buffer_total := rfl
      rw [i7 (by rw [e1, e2]; omega), e1]
      omega

/-! ## Where the bytes of the stream are -/

theorem memcpy_in {dst src : Int → Nat} {doff soff n i : Int} (h1 : doff ≤ i)
    (h2 : i < doff + n) : memcpy dst doff src soff n i = src (soff + (i - doff)) := by
  unfold memcpy
  rw [if_pos ⟨h1, h2⟩]

/-- The state after one `logfs_append` call on a freshly opened handle, when
the bytes fit into the write buffer. -/
theorem append_fresh (data : List Nat) (hB : 0 < dev0.block) (hw : dev0.writes = [])
    (hr : dev0.reads = []) (hfit : (data.length : Int) ≤ 32 * dev0.block) :
    Reach dev0 (logfs_append_loop (logfs_open dev0) data []).1 none false true data ∧
    (logfs_append_loop (logfs_open dev0) data []).2.1 = [] ∧
    (logfs_append_loop (logfs_open dev0) data []).1.block_size = dev0.block ∧
    (logfs_append_loop (logfs_open dev0) data []).1.write_buffer_total = 32 * dev0.block ∧
    (logfs_append_loop (logfs_open dev0) data []).1.buffer_head_index =
      (data.length : Int) % (32 * dev0.block) ∧
    (logfs_append_loop (logfs_open dev0) data []).1.buffer_tail_index = 0 ∧
    (logfs_append_loop (logfs_open dev0) data []).1.write_buffer_curr = (data.length : Int) ∧
    (logfs_append_loop (logfs_open dev0) data []).1.curr_file_offset = 0 ∧
    (logfs_append_loop (logfs_open dev0) data []).1.device_handle = dev0 := by
  have h0 : Reach dev0 (logfs_open dev0) none false true [] := Reach.opened hB hw hr
  have htot : (logfs_open dev0).write_buffer_total = 32 * dev0.block := by
    simp [logfs_open, WRITE_CACHE_BLOCK_COUNT, device_block]
  have hc0 : (logfs_open dev0).write_buffer_curr = 0 := rfl
  have hfit1 : (logfs_open dev0).write_buffer_curr + (data.length : Int) ≤
      (logfs_open dev0).write_buffer_total := by rw [htot, hc0]; omega
  obtain ⟨h1, h2⟩ := logfs_append_loop_reach data (logfs_open dev0) [] [] h0 hfit1
  simp only [List.nil_append] at h1
  obtain ⟨f1, f2, f3, f4, f5, f6, f7⟩ := logfs_append_loop_frame data (logfs_open dev0) []
  have hinv := reach_ringInv h1
  have hhead := (hinv.hnone rfl).2.1
  rw [f1] at hhead
  refine ⟨h1, h2, f1, f2.trans htot, hhead, f5, ?_, f4, f3⟩
  rw [f7 hfit1, hc0]
  omega

/-- The state after one `logfs_append` call of `n` bytes on a freshly opened
handle over a blank device with block size 4096. -/
theorem append_fresh_4096 (data : List Nat) (n : Nat) (hlen : data.length = n)
    (hfit : n ≤ 131072) :
    Reach (blank_device 4096)
      (logfs_append_loop (logfs_open (blank_device 4096)) data []).1 none false true data ∧
    (logfs_append_loop (logfs_open (blank_device 4096)) data []).1.block_size = 4096 ∧
    (logfs_append_loop (logfs_open (blank_device 4096)) data []).1.write_buffer_total =
      131072 ∧
    (logfs_append_loop (logfs_open (blank_device 4096)) data []).1.buffer_head_index =
      (n : Int) % 131072 ∧
    (logfs_append_loop (logfs_open (blank_device 4096)) data []).1.buffer_tail_index = 0 ∧
    (logfs_append_loop (logfs_open (blank_device 4096)) data []).1.write_buffer_curr =
      (n : Int) ∧
    (logfs_append_loop (logfs_open (blank_device 4096)) data []).1.curr_file_offset = 0 := by
  have hB : (0:Int) < (blank_device 4096).block := by decide
  have hb : (blank_device 4096).block = 4096 := rfl
  obtain ⟨a0, -, a1, a2, a3, a4, a5, a6, -⟩ :=
    @append_fresh (blank_device 4096) data hB rfl rfl (by rw [hb, hlen]; omega)
  rw [hb] at a1 a2 a3
  rw [hlen] at a3 a5
  exact ⟨a0, a1, by omega, by rw [a3]; norm_num, a4, a5, a6⟩

/-- C3: in every reachable state, a returning `flush_to_disk` leaves
`buffer_head_index` and `curr_file_offset + write_buffer_curr` as they were,
sets `write_buffer_curr` to `head mod B` and `buffer_tail_index` to
`head - head mod B`, and leaves the bytes of the write buffer in place, so the
next append continues the same block; the call does return when no
`device_write` fails. -/
theorem C3_flush_preserves_append_position {fs : logfs} {sg ok : Bool} {S : List Nat}
    (hr : Reach dev0 fs none sg ok S) :
    (∀ fs1, flush_to_disk fs = some fs1 →
      fs1.buffer_head_index = fs.buffer_head_index ∧
      fs1.curr_file_offset + fs1.write_buffer_curr =
        fs.curr_file_offset + fs.write_buffer_curr ∧
      fs1.write_buffer_curr = Int.tmod fs.buffer_head_index fs.block_size ∧
      fs1.buffer_tail_index =
        fs.buffer_head_index - Int.tmod fs.buffer_head_index fs.block_size ∧
      fs1.write_buffer = fs.write_buffer) ∧
    ((∀ o, fs.device_handle.write_error o = false) → ∃ fs1, flush_to_disk fs = some fs1) := by
  refine ⟨?_, flush_to_disk_total hr⟩
  intro fs1 h
  obtain ⟨h1, h2, h3, h4, h5, -, -⟩ := flush_to_disk_position hr h
  exact ⟨h1, h2, h3, h4, h5⟩

/-- C3 at the wrap-around case: with block size 4096 the head stands at
131071, the last byte of the buffer, so the pad moves it to `C` and the worker
leaves the tail at 0. -/
theorem C3_flush_preserves_append_position_witness :
    Reach (blank_device 4096)
      (logfs_append_loop (logfs_open (blank_device 4096)) (List.replicate 131071 0) []).1
      none false true (List.replicate 131071 0) ∧
    ((∀ fs1, flush_to_disk (logfs_append_loop (logfs_open (blank_device 4096))
        (List.replicate 131071 0) []).1 = some fs1 →
      fs1.buffer_head_index = (logfs_append_loop (logfs_open (blank_device 4096))
        (List.replicate 131071 0) []).1.buffer_head_index ∧
      fs1.curr_file_offset + fs1.write_buffer_curr =
        (logfs_append_loop (logfs_open (blank_device 4096))
          (List.replicate 131071 0) []).1.curr_file_offset +
        (logfs_append_loop (logfs_open (blank_device 4096))
          (List.replicate 131071 0) []).1.write_buffer_curr ∧
      fs1.write_buffer_curr = Int.tmod (logfs_append_loop (logfs_open (blank_device 4096))
        (List.replicate 131071 0) []).1.buffer_head_index
        (logfs_append_loop (logfs_open (blank_device 4096))
          (List.replicate 131071 0) []).1.block_size ∧
      fs1.buffer_tail_index =
        (logfs_append_loop (logfs_open (blank_device 4096))
          (List.replicate 131071 0) []).1.buffer_head_index -
        Int.tmod (logfs_append_loop (logfs_open (blank_device 4096))
          (List.replicate 131071 0) []).1.buffer_head_index
          (logfs_append_loop (logfs_open (blank_device 4096))
            (List.replicate 131071 0) []).1.block_size ∧
      fs1.write_buffer = (logfs_append_loop (logfs_open (blank_device 4096))
        (List.replicate 131071 0) []).1.write_buffer) ∧
    ((∀ o, (logfs_append_loop (logfs_open (blank_device 4096))
        (List.replicate 131071 0) []).1.device_handle.write_error o = false) →
      ∃ fs1, flush_to_disk (logfs_append_loop (logfs_open (blank_device 4096))
        (List.replicate 131071 0) []).1 = some fs1)) :=
  ⟨(append_fresh_4096 (List.replicate 131071 0) 131071 (List.length_replicate _ _)
      (by decide)).1,
    C3_flush_preserves_append_position
      (append_fresh_4096 (List.replicate 131071 0) 131071 (List.length_replicate _ _)
        (by decide)).1⟩

/-- C4: in a reachable state with nothing pending the pad computed by the
flush barrier is a full block, and a returning `flush_to_disk` leaves head,
tail, pending count, buffer contents and file offset as they were; the call
does return when no `device_write` fails. -/
theorem C4_flush_idempotent {fs : logfs} {sg ok : Bool} {S : List Nat}
    (hr : Reach dev0 fs none sg ok S) (h0 : fs.write_buffer_curr = 0) :
    (flush_pad fs).2 = fs.block_size ∧
    (∀ fs1, flush_to_disk fs = some fs1 →
      fs1.buffer_head_index = fs.buffer_head_index ∧
      fs1.buffer_tail_index = fs.buffer_tail_index ∧
      fs1.write_buffer_curr = fs.write_buffer_curr ∧
      fs1.write_buffer = fs.write_buffer ∧
      fs1.curr_file_offset = fs.curr_file_offset) ∧
    ((∀ o, fs.device_handle.write_error o = false) → ∃ fs1, flush_to_disk fs = some fs1) := by
  have hinv := reach_ringInv hr
  obtain ⟨a1, a2, a3⟩ := hinv.hnone rfl
  have hB := hinv.hB
  have hCpos : (0:Int) < 32 * fs.block_size := by omega
  have hLm := Int.emod_nonneg (S.length : Int) (ne_of_gt hCpos)
  have hLeq : (S.length : Int) = fs.curr_file_offset := by omega
  have hmod : Int.tmod fs.buffer_head_index fs.block_size = 0 := by
    rw [Int.tmod_eq_emod (by omega) (by omega), a2, emod_emod_block, hLeq]
    exact Int.emod_eq_zero_of_dvd hinv.hdvd
  have hht : fs.buffer_head_index = fs.buffer_tail_index := by
    rw [a2, hinv.htail, hLeq]
  refine ⟨?_, ?_, flush_to_disk_total hr⟩
  · simp only [flush_pad]
    rw [hmod]
    omega
  · intro fs1 h
    obtain ⟨h1, h2, h3, h4, h5, -, -⟩ := flush_to_disk_position hr h
    rw [hmod] at h3 h4
    refine ⟨h1, by omega, by omega, h5, by omega⟩

/-- C4 on a freshly opened handle (block size 4096): the flush barrier
returns and head, tail, pending count and offset are all 0 afterwards. -/
theorem C4_flush_idempotent_witness :
    Reach (blank_device 4096) (logfs_open (blank_device 4096)) none false true [] ∧
    (logfs_open (blank_device 4096)).write_buffer_curr = 0 ∧
    (flush_pad (logfs_open (blank_device 4096))).2 = 4096 ∧
    ∃ fs1, flush_to_disk (logfs_open (blank_device 4096)) = some fs1 ∧
      fs1.buffer_head_index = 0 ∧ fs1.buffer_tail_index = 0 ∧
      fs1.write_buffer_curr = 0 ∧ fs1.curr_file_offset = 0 := by
  have hr : Reach (blank_device 4096) (logfs_open (blank_device 4096)) none false true [] :=
    Reach.opened (by decide) rfl rfl
  obtain ⟨h1, h2, h3⟩ := C4_flush_idempotent hr rfl
  obtain ⟨fs1, hf⟩ := h3 (fun _ => rfl)
  obtain ⟨e1, e2, e3, -, e5⟩ := h2 fs1 hf
  exact ⟨hr, rfl, h1, fs1, hf, e1, e2, e3, e5⟩

/-- The pad of the flush barrier after 131071 appended bytes (block size
4096) puts the head at `C = 131072`. -/
theorem pad_head_at_end (data : List Nat) (hlen : data.length = 131071) :
    Reach (blank_device 4096)
      (flush_pad (logfs_append_loop (logfs_open (blank_device 4096)) data []).1).1
      (some (flush_pad (logfs_append_loop (logfs_open (blank_device 4096)) data []).1).2)
      false true data ∧
    (flush_pad (logfs_append_loop (logfs_open (blank_device 4096))
      data []).1).1.buffer_head_index = 131072 ∧
    (flush_pad (logfs_append_loop (logfs_open (blank_device 4096))
      data []).1).1.write_buffer_total = 131072 := by
  obtain ⟨a0, a1, a2, a3, -, -, -⟩ := append_fresh_4096 data 131071 hlen (by decide)
  refine ⟨Reach.pad a0, ?_, a2⟩
  simp only [flush_pad]
  rw [a1, a3]
  decide

/-- After 131072 appended bytes (block size 4096) the buffer is full, and the
pad of the flush barrier raises the pending count to `C + B = 135168`. -/
theorem pad_full_buffer (data : List Nat) (hlen : data.length = 131072) :
    Reach (blank_device 4096)
      (flush_pad (logfs_append_loop (logfs_open (blank_device 4096)) data []).1).1
      (some (flush_pad (logfs_append_loop (logfs_open (blank_device 4096)) data []).1).2)
      false true data ∧
    (flush_pad (logfs_append_loop (logfs_open (blank_device 4096))
      data []).1).1.write_buffer_curr = 135168 ∧
    (flush_pad (logfs_append_loop (logfs_open (blank_device 4096))
      data []).1).1.write_buffer_total = 131072 := by
  obtain ⟨a0, a1, a2, a3, -, a5, -⟩ := append_fresh_4096 data 131072 hlen (by decide)
  refine ⟨Reach.pad a0, ?_, a2⟩
  simp only [flush_pad]
  rw [a1, a3, a5]
  decide

/-- C8 as stated fails in three reachable states (block size 4096,
`C = 131072`): after 131071 appended bytes the pad of the flush barrier puts
the head at `C`; after 131072 appended bytes the pending count is `C` while
`(head - tail) mod C` is 0; and the pad that follows raises the pending count
to `C + B`. -/
theorem C8_counterexample :
    (Reach (blank_device 4096)
        (flush_pad (logfs_append_loop (logfs_open (blank_device 4096))
          (List.replicate 131071 0) []).1).1
        (some (flush_pad (logfs_append_loop (logfs_open (blank_device 4096))
          (List.replicate 131071 0) []).1).2) false true (List.replicate 131071 0) ∧
      (flush_pad (logfs_append_loop (logfs_open (blank_device 4096))
          (List.replicate 131071 0) []).1).1.buffer_head_index = 131072 ∧
      (flush_pad (logfs_append_loop (logfs_open (blank_device 4096))
          (List.replicate 131071 0) []).1).1.write_buffer_total = 131072 ∧
      ¬ ring_invariant_as_stated (flush_pad (logfs_append_loop
          (logfs_open (blank_device 4096)) (List.replicate 131071 0) []).1).1) ∧
    (Reach (blank_device 4096)
        (logfs_append_loop (logfs_open (blank_device 4096)) (List.replicate 131072 0) []).1
        none false true (List.replicate 131072 0) ∧
      (logfs_append_loop (logfs_open (blank_device 4096))
          (List.replicate 131072 0) []).1.write_buffer_curr = 131072 ∧
      (logfs_append_loop (logfs_open (blank_device 4096))
          (List.replicate 131072 0) []).1.buffer_head_index = 0 ∧
      (logfs_append_loop (logfs_open (blank_device 4096))
          (List.replicate 131072 0) []).1.buffer_tail_index = 0 ∧
      ¬ ring_invariant_as_stated (logfs_append_loop (logfs_open (blank_device 4096))
          (List.replicate 131072 0) []).1) ∧
    (Reach (blank_device 4096)
        (flush_pad (logfs_append_loop (logfs_open (blank_device 4096))
          (List.replicate 131072 0) []).1).1
        (some (flush_pad (logfs_append_loop (logfs_open (blank_device 4096))
          (List.replicate 131072 0) []).1).2) false true (List.replicate 131072 0) ∧
      (flush_pad (logfs_append_loop (logfs_open (blank_device 4096))
          (List.replicate 131072 0) []).1).1.write_buffer_curr = 135168 ∧
      ¬ ring_invariant_as_stated (flush_pad (logfs_append_loop
          (logfs_open (blank_device 4096)) (List.replicate 131072 0) []).1).1) := by
  obtain ⟨p1, p2, p3⟩ := pad_head_at_end (List.replicate 131071 0) (List.length_replicate _ _)
  obtain ⟨q1, q2, q3⟩ := pad_full_buffer (List.replicate 131072 0) (List.length_replicate _ _)
  obtain ⟨b0, b1, b2, b3, b4, b5, -⟩ :=
    append_fresh_4096 (List.replicate 131072 0) 131072 (List.length_replicate _ _) (by decide)
  refine ⟨⟨p1, p2, p3, ?_⟩, ⟨b0, b5, b3, b4, ?_⟩, ⟨q1, q2, ?_⟩⟩
  · intro h
    have := h.2.1
    rw [p2, p3] at this
    omega
  · intro h
    have := h.2.2.2.2.2.2
    rw [b5, b3, b4, b2] at this
    omega
  · intro h
    have := h.2.2.2.2.2.1
    rw [q2, q3] at this
    omega

/-- C8 (amended): in every reachable state `C = 32 * B`; the head lies in
`[0, C]` and in `[0, C)` while no flush barrier waits; the tail lies in
`[0, C)`; the pending count lies in `[0, C + B]` and in `[0, C]` while no flush
barrier waits; and the pending count is congruent to head minus tail modulo
`C`, hence equal to `(head - tail) mod C` whenever it is below `C`. -/
theorem C8_ring_buffer_invariant {fs : logfs} {w : Option Int} {sg ok : Bool}
    {S : List Nat} (hr : Reach dev0 fs w sg ok S) :
    fs.write_buffer_total = WRITE_CACHE_BLOCK_COUNT * fs.block_size ∧
    0 ≤ fs.buffer_head_index ∧ fs.buffer_head_index ≤ fs.write_buffer_total ∧
    (w = none → fs.buffer_head_index < fs.write_buffer_total) ∧
    0 ≤ fs.buffer_tail_index ∧ fs.buffer_tail_index < fs.write_buffer_total ∧
    0 ≤ fs.write_buffer_curr ∧
    fs.write_buffer_curr ≤ fs.write_buffer_total + fs.block_size ∧
    (w = none → fs.write_buffer_curr ≤ fs.write_buffer_total) ∧
    fs.write_buffer_curr % fs.write_buffer_total =
      (fs.buffer_head_index - fs.buffer_tail_index) % fs.write_buffer_total ∧
    (fs.write_buffer_curr < fs.write_buffer_total →
      fs.write_buffer_curr =
        (fs.buffer_head_index - fs.buffer_tail_index) % fs.write_buffer_total) := by
  have hinv := reach_ringInv hr
  obtain ⟨h1, h2, h3, h4, h5, h6, h7, h8, h9⟩ := ringInv_bounds hinv
  have hc := ringInv_congr hinv
  have hB := hinv.hB
  rw [← hinv.hC] at hc
  refine ⟨by rw [hinv.hC]; rfl, h1, h2, h3, h4, by omega, h7, h8, h9, hc, ?_⟩
  intro hlt
  rw [← hc]
  exact (Int.emod_eq_of_lt h7 hlt).symm

/-- C8 (amended) at the state in which the flush barrier has just padded a
buffer whose head stood at 131071 (block size 4096). -/
theorem C8_ring_buffer_invariant_witness :
    Reach (blank_device 4096)
      (flush_pad (logfs_append_loop (logfs_open (blank_device 4096))
        (List.replicate 131071 0) []).1).1
      (some (flush_pad (logfs_append_loop (logfs_open (blank_device 4096))
        (List.replicate 131071 0) []).1).2) false true (List.replicate 131071 0) ∧
    (flush_pad (logfs_append_loop (logfs_open (blank_device 4096))
      (List.replicate 131071 0) []).1).1.buffer_head_index ≤
    (flush_pad (logfs_append_loop (logfs_open (blank_device 4096))
      (List.replicate 131071 0) []).1).1.write_buffer_total :=
  ⟨(pad_head_at_end (List.replicate 131071 0) (List.length_replicate _ _)).1,
    (C8_ring_buffer_invariant
      (pad_head_at_end (List.replicate 131071 0) (List.length_replicate _ _)).1).2.2.1⟩

/-- A `logfs_append` call that fills the buffer with bytes left over stops at
the wait on `space_available_con`: the state is the one after the bytes that
fitted, and the rest is still to be copied. -/
theorem logfs_append_loop_split (d1 : List Nat) : ∀ (fs : logfs) (sigs : List Cond)
    (d2 : List Nat), fs.write_buffer_curr + (d1.length : Int) = fs.write_buffer_total →
    d2 ≠ [] →
    (logfs_append_loop fs (d1 ++ d2) sigs).2.1 = d2 ∧
    (logfs_append_loop fs (d1 ++ d2) sigs).1 = (logfs_append_loop fs d1 sigs).1 := by
  induction d1 with
  | nil =>
    intro fs sigs d2 hfull hne
    simp only [List.length_nil, Nat.cast_zero, add_zero] at hfull
    cases d2 with
    | nil => exact absurd rfl hne
    | cons b rest =>
      simp only [List.nil_append]
      unfold logfs_append_loop
      simp [hfull]
  | cons b rest ih =>
    intro fs sigs d2 hfull hne
    simp only [List.length_cons, Nat.cast_add, Nat.cast_one] at hfull
    have hlt : ¬ fs.write_buffer_total ≤ fs.write_buffer_curr := by omega
    simp only [List.cons_append]
    unfold logfs_append_loop
    simp only [hlt, if_false]
    exact ih (logfs_append_byte fs b).1 _ d2 (by simp only [logfs_append_byte]; omega) hne

/-- The worker never signals `space_available_con`. -/
theorem write_to_disk_no_space_signal (fuel : Nat) : ∀ (fs : logfs) (sigs : List Cond)
    (fs1 : logfs) (sigs1 : List Cond), write_to_disk fuel fs sigs = some (fs1, sigs1) →
    Cond.space_available_con ∈ sigs1 → Cond.space_available_con ∈ sigs := by
  induction fuel with
  | zero =>
    intro fs sigs fs1 sigs1 h hm
    unfold write_to_disk at h
    split at h
    · simp only [Option.some.injEq, Prod.mk.injEq] at h
      obtain ⟨-, rfl⟩ := h
      exact hm
    · split at h
      · simp only [Option.some.injEq, Prod.mk.injEq] at h
        obtain ⟨-, rfl⟩ := h
        exact hm
      · simp at h
  | succ n ih =>
    intro fs sigs fs1 sigs1 h hm
    unfold write_to_disk at h
    split at h
    · simp only [Option.some.injEq, Prod.mk.injEq] at h
      obtain ⟨-, rfl⟩ := h
      exact hm
    · split at h
      · simp only [Option.some.injEq, Prod.mk.injEq] at h
        obtain ⟨-, rfl⟩ := h
        exact hm
      · dsimp only at h
        split at h
        · simp at h
        · next fs2 s hs =>
          have h1 := ih _ _ _ _ h hm
          rcases List.mem_append.mp h1 with h2 | h2
          · exact h2
          · exact absurd h2 (write_to_disk_block_eq hs).2.2.2.2.2.2.2.2.2.2.2

/-- On a fresh handle with block size 4096, a `logfs_append` of 131072 bytes
followed by more stops at the wait on `space_available_con`; the worker then
persists every pending block without signalling `space_available_con`. -/
theorem append_over_capacity (data more : List Nat) (hlen : data.length = 131072)
    (hmore : more ≠ []) :
    logfs_append (logfs_open (blank_device 4096)) (data ++ more) = none ∧
    (logfs_append_loop (logfs_open (blank_device 4096)) (data ++ more) []).2.1 = more ∧
    (logfs_append_loop (logfs_open (blank_device 4096))
      (data ++ more) []).1.write_buffer_curr = 131072 ∧
    (logfs_append_loop (logfs_open (blank_device 4096))
      (data ++ more) []).1.write_buffer_total = 131072 ∧
    ∃ (fs1 : logfs) (sigs1 : List Cond),
      write_to_disk 131073 (logfs_append_loop (logfs_open (blank_device 4096))
        (data ++ more) []).1 [] = some (fs1, sigs1) ∧
      fs1.write_buffer_curr < fs1.write_buffer_total ∧
      Cond.space_available_con ∉ sigs1 := by
  obtain ⟨a0, a1, a2, -, -, a5, -⟩ := append_fresh_4096 data 131072 hlen (by decide)
  have hfull : (logfs_open (blank_device 4096)).write_buffer_curr +
      ((data.length : Nat) : Int) = (logfs_open (blank_device 4096)).write_buffer_total := by
    rw [hlen]; decide
  obtain ⟨s1, s2⟩ := logfs_append_loop_split data (logfs_open (blank_device 4096)) [] more
    hfull hmore
  rw [s2]
  have hinv := reach_ringInv a0
  obtain ⟨-, -, f3, -⟩ := logfs_append_loop_frame data (logfs_open (blank_device 4096)) []
  obtain ⟨⟨fs1, sigs1⟩, hrun⟩ := write_to_disk_total 131073
    (logfs_append_loop (logfs_open (blank_device 4096)) data []).1 []
    hinv.hB (by intro o; rw [f3]; rfl) (by rw [a5]; decide)
  have a0' : Reach (blank_device 4096) (logfs_append_loop (logfs_open (blank_device 4096))
      data []).1 none (decide (Cond.flush_con ∈ ([] : List Cond))) true data := by
    simpa using a0
  obtain ⟨-, hlt⟩ := write_to_disk_reach 131073 _ [] fs1 sigs1 a0' hrun
  obtain ⟨-, -, g3, g4, -⟩ := write_to_disk_frame _ _ _ _ _ hrun
  refine ⟨?_, s1, a5, a2, fs1, sigs1, hrun, ?_, ?_⟩
  · unfold logfs_append
    have : ∀ r : logfs × List Nat × List Cond, r.2.1 ≠ [] →
        (match r with
          | (fs1, [], _) => some fs1
          | (_, _ :: _, _) => none) = none := by
      intro r hr
      obtain ⟨x, y, z⟩ := r
      cases y with
      | nil => exact absurd rfl hr
      | cons _ _ => rfl
    exact this _ (by rw [s1]; exact hmore)
  · rw [g3, a1] at hlt
    rw [g4, a2]
    omega
  · intro hm
    have := write_to_disk_no_space_signal _ _ _ _ _ hrun hm
    simp at this

/-- The worker leaves a cache line alone unless it is tagged with the block
being persisted. -/
theorem write_to_disk_block_keeps {fs fs1 : logfs} {sigs : List Cond}
    (h : write_to_disk_block fs = some (fs1, sigs)) (i : Int)
    (hne : (fs.read_cache_blocks i).block_identifier ≠
      Int.tdiv fs.curr_file_offset fs.block_size) :
    fs1.read_cache_blocks i = fs.read_cache_blocks i := by
  unfold write_to_disk_block at h
  by_cases he : fs.device_handle.write_error fs.curr_file_offset = true
  · simp [device_write, he] at h
  · simp only [Bool.not_eq_true] at he
    simp only [device_write, he] at h
    simp only [Bool.false_eq_true, if_false, ne_eq, not_true_eq_false] at h
    have key : ∀ fs2 : logfs, fs2.read_cache_blocks =
        (if (fs.read_cache_blocks (Int.tmod (Int.tdiv fs.curr_file_offset fs.block_size)
            READ_CACHE_BLOCK_COUNT)).block_identifier =
            Int.tdiv fs.curr_file_offset fs.block_size then
          fun i => if i = Int.tmod (Int.tdiv fs.curr_file_offset fs.block_size)
              READ_CACHE_BLOCK_COUNT then
            { fs.read_cache_blocks (Int.tmod (Int.tdiv fs.curr_file_offset fs.block_size)
                READ_CACHE_BLOCK_COUNT) with is_valid := 0 }
          else fs.read_cache_blocks i
        else fs.read_cache_blocks) →
        fs2.read_cache_blocks i = fs.read_cache_blocks i := by
      intro fs2 hc
      rw [hc]
      split
      · next htag =>
        by_cases hi : i = Int.tmod (Int.tdiv fs.curr_file_offset fs.block_size)
            READ_CACHE_BLOCK_COUNT
        · subst hi
          exact absurd htag hne
        · simp only [if_neg hi]
      · rfl
    split at h
    · simp only [Option.some.injEq, Prod.mk.injEq] at h
      obtain ⟨rfl, -⟩ := h
      exact key _ rfl
    · simp only [Option.some.injEq, Prod.mk.injEq] at h
      obtain ⟨rfl, -⟩ := h
      exact key _ rfl

/-- A run of the worker's loop leaves the cache lines of blocks below the
persisted offset alone. -/
theorem write_to_disk_keeps (fuel : Nat) : ∀ (fs : logfs) (sigs : List Cond) (fs1 : logfs)
    (sigs1 : List Cond), 0 < fs.block_size → 0 ≤ fs.curr_file_offset →
    fs.block_size ∣ fs.curr_file_offset →
    write_to_disk fuel fs sigs = some (fs1, sigs1) →
    ∀ i : Int, (fs.read_cache_blocks i).block_identifier * fs.block_size <
      fs.curr_file_offset → fs1.read_cache_blocks i = fs.read_cache_blocks i := by
  induction fuel with
  | zero =>
    intro fs sigs fs1 sigs1 hB h0 hd h i hi
    unfold write_to_disk at h
    split at h
    · simp only [Option.some.injEq, Prod.mk.injEq] at h
      obtain ⟨rfl, -⟩ := h
      rfl
    · split at h
      · simp only [Option.some.injEq, Prod.mk.injEq] at h
        obtain ⟨rfl, -⟩ := h
        rfl
      · simp at h
  | succ n ih =>
    intro fs sigs fs1 sigs1 hB h0 hd h i hi
    unfold write_to_disk at h
    split at h
    · simp only [Option.some.injEq, Prod.mk.injEq] at h
      obtain ⟨rfl, -⟩ := h
      rfl
    · split at h
      · simp only [Option.some.injEq, Prod.mk.injEq] at h
        obtain ⟨rfl, -⟩ := h
        rfl
      · dsimp only at h
        split at h
        · simp at h
        · next fs2 s hs =>
          obtain ⟨-, -, -, -, -, hbs, -, -, -, ho, -, -⟩ := write_to_disk_block_eq hs
          have hk : Int.tdiv fs.curr_file_offset fs.block_size * fs.block_size =
              fs.curr_file_offset := by
            rw [Int.tdiv_eq_ediv h0 (le_of_lt hB)]
            exact Int.ediv_mul_cancel hd
          have hkeep := write_to_disk_block_keeps hs i (by
            intro heq
            rw [heq, hk] at hi
            omega)
          rw [← hkeep]
          apply ih fs2 _ fs1 sigs1 (by rw [hbs]; exact hB) (by rw [ho]; omega)
            (by rw [hbs, ho]; exact Int.dvd_add hd (dvd_refl _)) h i
          rw [hkeep, hbs, ho]
          omega

/-- The flush barrier leaves the cache lines of blocks below the persisted
offset alone. -/
theorem flush_to_disk_keeps {fs fs1 : logfs} {sg ok : Bool} {S : List Nat}
    (hr : Reach dev0 fs none sg ok S) (h : flush_to_disk fs = some fs1) (i : Int)
    (hi : (fs.read_cache_blocks i).block_identifier * fs.block_size < fs.curr_file_offset) :
    fs1.read_cache_blocks i = fs.read_cache_blocks i := by
  obtain ⟨fs2, sigs, hrun, -, -, rfl⟩ := flush_to_disk_steps hr h
  have hinv := reach_ringInv hr
  exact write_to_disk_keeps _ (flush_pad fs).1 [] fs2 sigs hinv.hB hinv.hoff hinv.hdvd hrun i hi

/-- A `logfs_read` loop for one byte: what it does when the block hits the
cache, when it misses and `device_read` succeeds, and when it misses and
`device_read` fails. -/
theorem logfs_read_body_one (fs : logfs) (buffer : Int → Nat) (a : Nat)
    (hB : 0 < fs.block_size) :
    ((fs.read_cache_blocks (Int.tmod (Int.tdiv (a : Int) fs.block_size)
          READ_CACHE_BLOCK_COUNT)).is_valid ≠ 0 ∧
        (fs.read_cache_blocks (Int.tmod (Int.tdiv (a : Int) fs.block_size)
          READ_CACHE_BLOCK_COUNT)).block_identifier = Int.tdiv (a : Int) fs.block_size →
      ∃ out, logfs_read_body fs buffer a 1 = some (0, fs, out) ∧
        out 0 = (fs.read_cache_blocks (Int.tmod (Int.tdiv (a : Int) fs.block_size)
          READ_CACHE_BLOCK_COUNT)).block_data (Int.tmod (a : Int) fs.block_size)) ∧
    (¬ ((fs.read_cache_blocks (Int.tmod (Int.tdiv (a : Int) fs.block_size)
          READ_CACHE_BLOCK_COUNT)).is_valid ≠ 0 ∧
        (fs.read_cache_blocks (Int.tmod (Int.tdiv (a : Int) fs.block_size)
          READ_CACHE_BLOCK_COUNT)).block_identifier = Int.tdiv (a : Int) fs.block_size) →
      (fs.device_handle.read_error (Int.tdiv (a : Int) fs.block_size * fs.block_size) = false →
        ∃ fs1 out, logfs_read_body fs buffer a 1 = some (0, fs1, out) ∧
          (fs1.read_cache_blocks (Int.tmod (Int.tdiv (a : Int) fs.block_size)
            READ_CACHE_BLOCK_COUNT)).is_valid = 1 ∧
          (fs1.read_cache_blocks (Int.tmod (Int.tdiv (a : Int) fs.block_size)
            READ_CACHE_BLOCK_COUNT)).block_identifier = Int.tdiv (a : Int) fs.block_size) ∧
      (fs.device_handle.read_error (Int.tdiv (a : Int) fs.block_size * fs.block_size) = true →
        ∃ fs1, logfs_read_body fs buffer a 1 = some (-1, fs1, buffer) ∧
          (fs1.read_cache_blocks (Int.tmod (Int.tdiv (a : Int) fs.block_size)
            READ_CACHE_BLOCK_COUNT)).is_valid =
            (fs.read_cache_blocks (Int.tmod (Int.tdiv (a : Int) fs.block_size)
              READ_CACHE_BLOCK_COUNT)).is_valid ∧
          (fs1.read_cache_blocks (Int.tmod (Int.tdiv (a : Int) fs.block_size)
            READ_CACHE_BLOCK_COUNT)).block_identifier =
            (fs.read_cache_blocks (Int.tmod (Int.tdiv (a : Int) fs.block_size)
              READ_CACHE_BLOCK_COUNT)).block_identifier ∧
          (fs1.read_cache_blocks (Int.tmod (Int.tdiv (a : Int) fs.block_size)
            READ_CACHE_BLOCK_COUNT)).block_data =
            fs.device_handle.read_failed_dst
              (fs.read_cache_blocks (Int.tmod (Int.tdiv (a : Int) fs.block_size)
                READ_CACHE_BLOCK_COUNT)).block_data)) := by
  have ha : (0 : Int) ≤ (a : Int) := Int.ofNat_nonneg a
  have hst1 : Int.tmod (a : Int) fs.block_size < fs.block_size := by
    rw [Int.tmod_eq_emod ha (le_of_lt hB)]; exact Int.emod_lt_of_pos _ hB
  have hlen : min ((1 : Nat) : Int) (fs.block_size - Int.tmod (a : Int) fs.block_size) = 1 := by
    rw [Nat.cast_one]; exact min_eq_left (by omega)
  have hdone : ∀ (fs2 : logfs) (buf : Int → Nat) (x y z w : Int),
      logfs_read_loop 1 fs2 buf x y z w (0 + 1) ((1 : Nat) : Int) = some (0, fs2, buf) := by
    intro fs2 buf x y z w
    unfold logfs_read_loop
    simp
  refine ⟨?_, ?_⟩
  · intro hhit
    unfold logfs_read_body
    unfold logfs_read_loop
    simp only [Nat.cast_one, zero_lt_one, not_true_eq_false, if_false] at hlen ⊢
    rw [if_pos hhit, hlen]
    refine ⟨_, hdone _ _ _ _ _ _, ?_⟩
    rw [memcpy_in (le_refl _) (by omega)]
    simp
  · intro hmiss
    refine ⟨?_, ?_⟩
    · intro herr
      unfold logfs_read_body
      unfold logfs_read_loop
      simp only [Nat.cast_one, zero_lt_one, not_true_eq_false, if_false] at hlen ⊢
      rw [if_neg hmiss, hlen]
      simp only [device_read, herr, Bool.false_eq_true, if_false, ne_eq, not_true_eq_false]
      refine ⟨_, _, hdone _ _ _ _ _ _, ?_, ?_⟩
      · simp
      · simp
    · intro herr
      unfold logfs_read_body
      unfold logfs_read_loop
      simp only [Nat.cast_one, zero_lt_one, not_true_eq_false, if_false] at hlen ⊢
      rw [if_neg hmiss]
      simp only [device_read, herr, if_true]
      rw [if_pos (by decide : (-1 : Int) ≠ 0)]
      refine ⟨_, rfl, ?_, ?_, ?_⟩
      · simp
      · simp
      · simp

/-- After the flush barrier the persisted offset is the start of the block
that holds the end of the stream, and the pending count is the rest. -/
theorem flush_to_disk_offset {fs fs1 : logfs} {sg ok : Bool} {S : List Nat}
    (hr : Reach dev0 fs none sg ok S) (h : flush_to_disk fs = some fs1) :
    fs1.curr_file_offset = (S.length : Int) - (S.length : Int) % fs.block_size ∧
    fs1.write_buffer_curr = (S.length : Int) % fs.block_size := by
  have hr1 := flush_to_disk_reach hr h
  obtain ⟨-, -, h3, -, -, -, -⟩ := flush_to_disk_position hr h
  have i0 := reach_ringInv hr
  have i1 := reach_ringInv hr1
  obtain ⟨-, a2, -⟩ := i0.hnone rfl
  obtain ⟨-, -, b3⟩ := i1.hnone rfl
  have hB := i0.hB
  have hCpos : (0:Int) < 32 * fs.block_size := by omega
  have hLm := Int.emod_nonneg (S.length : Int) (ne_of_gt hCpos)
  have hmod : Int.tmod fs.buffer_head_index fs.block_size = (S.length : Int) % fs.block_size := by
    rw [Int.tmod_eq_emod (by omega) (by omega), a2, emod_emod_block]
  rw [hmod] at h3
  exact ⟨by omega, h3⟩

theorem read_failing_device_reach {fs : logfs} {w : Option Int} {sg ok : Bool}
    {S : List Nat} (hr : Reach read_failing_device fs w sg ok S) :
    fs.block_size = 4096 ∧ fs.write_buffer_total = 131072 ∧
    (∀ o, fs.device_handle.write_error o = false) ∧
    (∀ o, fs.device_handle.read_error o = decide (o = 0)) ∧
    fs.device_handle.read_failed_dst = fun _ _ => 255 := by
  obtain ⟨d1, d2, d3, d4, d5⟩ := reach_device hr
  have hC := (reach_ringInv hr).hC
  have hb : read_failing_device.block = 4096 := rfl
  rw [hb] at d1
  exact ⟨d1, by rw [hC, d1]; rfl, fun o => by rw [d3]; rfl, fun o => by rw [d4]; rfl,
    by rw [d5]; rfl⟩

/-- One round of filling the buffer with 131072 zero bytes and flushing it. -/
theorem read_failing_device_round (data : List Nat) (hlen : data.length = 131072)
    (hz : ∀ x ∈ data, x = 0) {fs : logfs} {S : List Nat}
    (hr : Reach read_failing_device fs none false true S) (hc : fs.write_buffer_curr = 0)
    (hS : ∀ x ∈ S, x = 0) :
    ∃ F, Reach read_failing_device F none false true (S ++ data) ∧
      F.write_buffer_curr = 0 ∧ ∀ x ∈ S ++ data, x = 0 := by
  obtain ⟨hbs, htot, hwe, -, -⟩ := read_failing_device_reach hr
  obtain ⟨G, hG, hrG⟩ := logfs_append_reach data hr (by rw [hc, htot, hlen]; decide)
  obtain ⟨gbs, -, gwe, -, -⟩ := read_failing_device_reach hrG
  obtain ⟨F, hF⟩ := flush_to_disk_total hrG gwe
  obtain ⟨-, f2⟩ := flush_to_disk_offset hrG hF
  have hinv := reach_ringInv hr
  obtain ⟨a1, -, a3⟩ := hinv.hnone rfl
  have hdvd := hinv.hdvd
  rw [hbs] at hdvd
  refine ⟨F, flush_to_disk_reach hrG hF, ?_, ?_⟩
  · rw [f2, gbs, List.length_append, hlen]
    push_cast
    omega
  · intro x hx
    rcases List.mem_append.mp hx with h | h
    · exact hS x h
    · exact hz x h

/-- Any number of such rounds. -/
theorem read_failing_device_rounds (k : Nat) :
    ∃ fs S, Reach read_failing_device fs none false true S ∧ fs.write_buffer_curr = 0 ∧
      S.length = k * 131072 ∧ ∀ x ∈ S, x = 0 := by
  induction k with
  | zero =>
    exact ⟨logfs_open read_failing_device, [], Reach.opened (by decide) rfl rfl, rfl, rfl,
      fun x hx => by cases hx⟩
  | succ n ih =>
    obtain ⟨fs, S, hr, hc, hL, hS⟩ := ih
    obtain ⟨F, hrF, hcF, hSF⟩ := read_failing_device_round (List.replicate 131072 0)
      (List.length_replicate _ _) (fun x hx => List.eq_of_mem_replicate hx) hr hc hS
    refine ⟨F, S ++ List.replicate 131072 0, hrF, hcF, ?_, hSF⟩
    rw [List.length_append, List.length_replicate, hL]
    ring

/-- A reachable state over `read_failing_device` with 257 blocks and one byte
appended (all zero) in which slot 0 of the read cache holds block 256. -/
theorem read_failing_device_cached :
    ∃ fs S, Reach read_failing_device fs none false true S ∧
      S.length = 1052673 ∧ (∀ x ∈ S, x = 0) ∧
      fs.curr_file_offset = 1052672 ∧
      (fs.read_cache_blocks 0).is_valid ≠ 0 ∧
      (fs.read_cache_blocks 0).block_identifier = 256 := by
  obtain ⟨fs0, S0, hr0, hc0, hL0, hS0⟩ := read_failing_device_rounds 8
  obtain ⟨hbs0, htot0, -, -, -⟩ := read_failing_device_reach hr0
  have hlen : (List.replicate 4097 0 : List Nat).length = 4097 := List.length_replicate _ _
  obtain ⟨G, -, hrG⟩ := logfs_append_reach (List.replicate 4097 0) hr0
    (by rw [hc0, htot0, hlen]; decide)
  have hLG : (S0 ++ List.replicate 4097 0).length = 1052673 := by
    rw [List.length_append, hlen, hL0]
  have hSG : ∀ x ∈ S0 ++ List.replicate 4097 0, x = 0 := by
    intro x hx
    rcases List.mem_append.mp hx with h | h
    · exact hS0 x h
    · exact List.eq_of_mem_replicate h
  obtain ⟨gbs, -, gwe, -, -⟩ := read_failing_device_reach hrG
  obtain ⟨F, hF⟩ := flush_to_disk_total hrG gwe
  have hrF := flush_to_disk_reach hrG hF
  obtain ⟨fo, -⟩ := flush_to_disk_offset hrG hF
  rw [gbs, hLG] at fo
  obtain ⟨fbs, -, -, fre, -⟩ := read_failing_device_reach hrF
  have hFoff : F.curr_file_offset = 1052672 := by rw [fo]; decide
  obtain ⟨hhit, hmiss⟩ := logfs_read_body_one F (fun _ => 0) 1048576 (by rw [fbs]; decide)
  rw [fbs] at hhit hmiss
  have e1 : Int.tdiv ((1048576 : Nat) : Int) 4096 = 256 := by decide
  have e2 : Int.tmod (256 : Int) READ_CACHE_BLOCK_COUNT = 0 := by decide
  rw [e1, e2] at hhit hmiss
  by_cases hc : (F.read_cache_blocks 0).is_valid ≠ 0 ∧
      (F.read_cache_blocks 0).block_identifier = 256
  · exact ⟨F, _, hrF, hLG, hSG, hFoff, hc.1, hc.2⟩
  · obtain ⟨fs1, out, hrun, hv, ht⟩ := (hmiss hc).1 (by rw [fre]; decide)
    have hr1 := Reach.read (fun _ => 0) out 1048576 1 0 hrF hrun
    have hs := logfs_read_loop_sameLog _ _ _ _ _ _ _ _ _ _ _ _ hrun
    refine ⟨fs1, _, hr1, hLG, hSG, by rw [hs.hoff]; exact hFoff, ?_, ht⟩
    rw [hv]
    decide

/-- C9 fails on the code.  On a fresh handle (block size 4096, `C = 131072`)
`logfs_append` of 131073 bytes copies 131072 bytes and then waits on
`space_available_con` with one byte left; the worker then persists every
pending block, so the buffer has room again, but it signals only `flush_con`:
nothing wakes the appender, and the call does not return. -/
theorem C9_append_beyond_capacity_not_woken :
    logfs_append (logfs_open (blank_device 4096)) (List.replicate 131072 0 ++ [0]) = none ∧
    (logfs_append_loop (logfs_open (blank_device 4096))
      (List.replicate 131072 0 ++ [0]) []).2.1 = [0] ∧
    (logfs_append_loop (logfs_open (blank_device 4096))
      (List.replicate 131072 0 ++ [0]) []).1.write_buffer_curr = 131072 ∧
    (logfs_append_loop (logfs_open (blank_device 4096))
      (List.replicate 131072 0 ++ [0]) []).1.write_buffer_total = 131072 ∧
    ∃ (fs1 : logfs) (sigs1 : List Cond),
      write_to_disk 131073 (logfs_append_loop (logfs_open (blank_device 4096))
        (List.replicate 131072 0 ++ [0]) []).1 [] = some (fs1, sigs1) ∧
      fs1.write_buffer_curr < fs1.write_buffer_total ∧
      Cond.space_available_con ∉ sigs1 :=
  append_over_capacity (List.replicate 131072 0) [0] (List.length_replicate _ _)
    (List.cons_ne_nil _ _)

/-- C7 fails on the code.  Over `read_failing_device` (block size 4096,
`device_read` fails at offset 0) there is a reachable state, with 1052673 zero
bytes appended and block 256 cached in slot 0, in which `logfs_read(buffer, 0,
1)` returns -1 and leaves slot 0 valid and tagged 256, with its data
overwritten by the failed `device_read`; the next `logfs_read(buffer, 1048576,
1)` then returns 0 and hands out the byte 255 from that line although the
stream byte at 1048576 is 0. -/
theorem C7_failed_read_leaves_slot_valid :
    ∃ (fs : logfs) (S : List Nat) (fs1 fs2 : logfs) (out : Int → Nat),
      Reach read_failing_device fs none false true S ∧
      logfs_read fs (fun _ => 0) 0 1 = some (-1, fs1, fun _ => 0) ∧
      (fs1.read_cache_blocks (Int.tmod (Int.tdiv 0 fs.block_size)
        READ_CACHE_BLOCK_COUNT)).is_valid ≠ 0 ∧
      (fs1.read_cache_blocks 0).is_valid ≠ 0 ∧
      (fs1.read_cache_blocks 0).block_identifier = 256 ∧
      logfs_read fs1 (fun _ => 0) 1048576 1 = some (0, fs2, out) ∧
      out 0 = 255 ∧ S[1048576]? = some 0 := by
  obtain ⟨fs, S, hr, hL, hS, hoff, hv, ht⟩ := read_failing_device_cached
  obtain ⟨hbs, -, hwe, -, -⟩ := read_failing_device_reach hr
  -- the failing read of block 0
  obtain ⟨F, hF⟩ := flush_to_disk_total hr hwe
  have hrF := flush_to_disk_reach hr hF
  obtain ⟨fo, -⟩ := flush_to_disk_offset hr hF
  rw [hbs, hL] at fo
  have hFoff : F.curr_file_offset = 1052672 := by rw [fo]; decide
  obtain ⟨fbs, -, fwe, fre, frd⟩ := read_failing_device_reach hrF
  have hkeep := flush_to_disk_keeps hr hF 0 (by rw [ht, hbs, hoff]; decide)
  obtain ⟨-, hmiss⟩ := logfs_read_body_one F (fun _ => 0) 0 (by rw [fbs]; decide)
  rw [fbs] at hmiss
  have e1 : Int.tdiv ((0 : Nat) : Int) 4096 = 0 := by decide
  have e2 : Int.tmod (0 : Int) READ_CACHE_BLOCK_COUNT = 0 := by decide
  rw [e1, e2, hkeep] at hmiss
  obtain ⟨fs1, hrun1, v1, t1, d1⟩ := (hmiss (by rw [ht]; intro h; exact absurd h.2 (by decide))).2
    (by rw [fre]; decide)
  have hr1 := Reach.read (fun _ => 0) (fun _ => 0) 0 1 (-1) hrF hrun1
  have hs1 := logfs_read_loop_sameLog _ _ _ _ _ _ _ _ _ _ _ _ hrun1
  have hread1 : logfs_read fs (fun _ => 0) 0 1 = some (-1, fs1, fun _ => 0) := by
    unfold logfs_read
    simp only [hF]
    exact hrun1
  -- the read of block 256 that follows
  obtain ⟨b1, -, bwe, -, -⟩ := read_failing_device_reach hr1
  obtain ⟨F2, hF2⟩ := flush_to_disk_total hr1 bwe
  have hrF2 := flush_to_disk_reach hr1 hF2
  obtain ⟨f2bs, -, -, -, -⟩ := read_failing_device_reach hrF2
  have hkeep2 := flush_to_disk_keeps hr1 hF2 0
    (by rw [t1, ht, b1, hs1.hoff, hFoff]; decide)
  obtain ⟨hhit, -⟩ := logfs_read_body_one F2 (fun _ => 0) 1048576 (by rw [f2bs]; decide)
  rw [f2bs] at hhit
  have e3 : Int.tdiv ((1048576 : Nat) : Int) 4096 = 256 := by decide
  have e4 : Int.tmod (256 : Int) READ_CACHE_BLOCK_COUNT = 0 := by decide
  rw [e3, e4, hkeep2] at hhit
  obtain ⟨out, hrun2, ho⟩ := hhit ⟨by rw [v1]; exact hv, by rw [t1, ht]⟩
  have hread2 : logfs_read fs1 (fun _ => 0) 1048576 1 = some (0, F2, out) := by
    unfold logfs_read
    simp only [hF2]
    exact hrun2
  refine ⟨fs, S, fs1, F2, out, hr, hread1, ?_, by rw [v1]; exact hv, by rw [t1, ht], hread2,
    ?_, ?_⟩
  · rw [hbs]
    have : Int.tmod (Int.tdiv 0 4096) READ_CACHE_BLOCK_COUNT = 0 := by decide
    rw [this, v1]
    exact hv
  · rw [ho, d1, frd]
  · have hlt : 1048576 < S.length := by rw [hL]; decide
    rw [List.getElem?_eq_getElem hlt]
    exact congrArg some (hS _ (List.getElem_mem _))

end LogFS
